import Mathlib

/-!
The program `async_http_header_grab`: target expansion, probing and collection.

A shallow embedding of `async_header_grab.go`.

* Byte slices (`net.IP`, `net.IPMask`) are lists of naturals below 256; the Go
  `nil` slice is the empty list.  Byte arithmetic is explicit `% 256`.
* Loops that may run forever carry a fuel argument: `none` means the loop was
  still running when the fuel ran out.
* Channel sends are recorded in the order in which they happen.
-/

namespace AsyncHeaderGrab

/-! ## Byte sequences as big-endian integers -/

/-- Value of a byte sequence read as a big-endian unsigned integer. -/
def beVal (ip : List Nat) : Nat :=
  ip.foldl (fun acc b => acc * 256 + b) 0

/-- The `n`-byte big-endian encoding of `v` (the low `8 * n` bits of `v`). -/
def beBytes : Nat → Nat → List Nat
  | 0, _ => []
  | n + 1, v => beBytes n (v / 256) ++ [v % 256]

/-- Every element of the sequence is a byte. -/
def IsBytes (ip : List Nat) : Prop :=
  ∀ b ∈ ip, b < 256

instance (ip : List Nat) : Decidable (IsBytes ip) := by
  unfold IsBytes; infer_instance

/-! ## `inc` (source lines 48-55) -/

/-- The loop of `inc`: `incLoop (j + 1) ip` runs the body at index `j`
(`ip[j]++`, then `break` when the byte did not wrap to zero) and otherwise
goes on with `j - 1`; `incLoop 0 ip` is the loop exit at `j < 0`. -/
def incLoop : Nat → List Nat → List Nat
  | 0, ip => ip
  | j + 1, ip =>
    let ip1 := ip.set j ((ip.getD j 0 + 1) % 256)
    if ip1.getD j 0 > 0 then ip1 else incLoop j ip1

/-- The function `inc`: `for j := len(ip) - 1; j >= 0; j--`. -/
def inc (ip : List Nat) : List Nat :=
  incLoop ip.length ip

/-! ## Model of the parts of Go's `net` and `net/netip` packages that
`explodeCIDRs` calls (Go releases whose `net.ParseCIDR` is built on
`netip.ParseAddr`) -/

/-- The type `net.IPNet`: a network number and its mask. -/
structure IPNet where
  IP : List Nat
  Mask : List Nat
  deriving DecidableEq

/-- The 12-byte prefix of an IPv4-mapped IPv6 address. -/
def v4InV6Prefix : List Nat := [0, 0, 0, 0, 0, 0, 0, 0, 0, 0, 0xff, 0xff]

/-- Go `isZeros`. -/
def isZeros (p : List Nat) : Bool := p.all (fun b => b == 0)

/-- Go `allFF`. -/
def allFF (b : List Nat) : Bool := b.all (fun c => c == 0xff)

/-- Go `IP.To4`: a 4-byte address is returned as is, an IPv4-mapped 16-byte
address gives its last four bytes, anything else gives `nil`. -/
def To4 (ip : List Nat) : List Nat :=
  if ip.length = 4 then ip
  else if ip.length = 16 ∧ isZeros (ip.take 10) = true ∧ ip.getD 10 0 = 0xff ∧
      ip.getD 11 0 = 0xff then ip.drop 12
  else []

/-- Go `IP.Mask`: the bytewise AND of address and mask, after bringing both to
the same width; `nil` when the widths still differ. -/
def ipMask (ip mask : List Nat) : List Nat :=
  let mask1 :=
    if mask.length = 16 ∧ ip.length = 4 ∧ allFF (mask.take 12) = true then mask.drop 12
    else mask
  let ip1 :=
    if mask1.length = 4 ∧ ip.length = 16 ∧ ip.take 12 = v4InV6Prefix then ip.drop 12
    else ip
  if ip1.length ≠ mask1.length then []
  else List.zipWith (fun a b => a &&& b) ip1 mask1

/-- Go `networkNumberAndMask`. -/
def networkNumberAndMask (n : IPNet) : List Nat × List Nat :=
  let ip4 := To4 n.IP
  if ip4 = [] ∧ n.IP.length ≠ 16 then ([], [])
  else
    let ip := if ip4 = [] then n.IP else ip4
    if n.Mask.length = 4 then
      if ip.length ≠ 4 then ([], []) else (ip, n.Mask)
    else if n.Mask.length = 16 then
      if ip.length = 4 then (ip, n.Mask.drop 12) else (ip, n.Mask)
    else ([], [])

/-- Go `(*IPNet).Contains`. -/
def Contains (n : IPNet) (ip : List Nat) : Bool :=
  let nm := networkNumberAndMask n
  let nn := nm.1
  let m := nm.2
  let x := To4 ip
  let ip1 := if x ≠ [] then x else ip
  let l := ip1.length
  if l ≠ nn.length then false
  else (List.range l).all
    (fun i => nn.getD i 0 &&& m.getD i 0 == ip1.getD i 0 &&& m.getD i 0)

/-- The loop of Go `CIDRMask`: `l` bytes still to write, `n` one-bits still to
place. -/
def cidrMaskLoop : Nat → Nat → List Nat
  | 0, _ => []
  | l + 1, n =>
    if n ≥ 8 then 0xff :: cidrMaskLoop l (n - 8)
    else (0xff - (0xff >>> n)) :: cidrMaskLoop l 0

/-- Go `CIDRMask(ones, bits)`. -/
def CIDRMask (ones bits : Nat) : List Nat :=
  if bits ≠ 32 ∧ bits ≠ 128 then []
  else if ones > bits then []
  else cidrMaskLoop (bits / 8) ones

/-- A parsed `netip.Addr` without zone. -/
inductive Addr where
  | v4 (bytes : List Nat)
  | v6 (bytes : List Nat)
  deriving DecidableEq

/-- Go `Addr.BitLen`. -/
def Addr.BitLen : Addr → Nat
  | .v4 _ => 32
  | .v6 _ => 128

/-- Go `Addr.As16`. -/
def Addr.As16 : Addr → List Nat
  | .v4 b => v4InV6Prefix ++ b
  | .v6 b => b

/-- Is the character an ASCII decimal digit. -/
def isDigit (c : Char) : Bool := decide ('0'.toNat ≤ c.toNat ∧ c.toNat ≤ '9'.toNat)

/-- The loop of Go `parseIPv4Fields` over the remaining characters: `prev` is
the previous character (`none` at index 0), `val` the value of the current
octet, `pos` the index of the current octet and `digLen` its digit count. -/
def parseIPv4FieldsLoop :
    List Char → Option Char → Nat → Nat → Nat → List Nat → Option (List Nat)
  | [], _, val, pos, _, fields =>
    if pos < 3 then none else some (fields.set 3 (val % 256))
  | c :: rest, prev, val, pos, digLen, fields =>
    if isDigit c then
      if digLen = 1 ∧ val = 0 then none
      else
        let val1 := val * 10 + (c.toNat - '0'.toNat)
        if val1 > 255 then none
        else parseIPv4FieldsLoop rest (some c) val1 pos (digLen + 1) fields
    else if c = '.' then
      if prev = none ∨ rest = [] ∨ prev = some '.' then none
      else if pos = 3 then none
      else parseIPv4FieldsLoop rest (some c) 0 (pos + 1) 0 (fields.set pos (val % 256))
    else none

/-- Go `parseIPv4Fields` on the whole of `s`. -/
def parseIPv4Fields (s : List Char) : Option (List Nat) :=
  parseIPv4FieldsLoop s none 0 0 0 [0, 0, 0, 0]

/-- Value of a hexadecimal digit. -/
def hexVal (c : Char) : Option Nat :=
  if '0'.toNat ≤ c.toNat ∧ c.toNat ≤ '9'.toNat then some (c.toNat - '0'.toNat)
  else if 'a'.toNat ≤ c.toNat ∧ c.toNat ≤ 'f'.toNat then some (c.toNat - 'a'.toNat + 10)
  else if 'A'.toNat ≤ c.toNat ∧ c.toNat ≤ 'F'.toNat then some (c.toNat - 'A'.toNat + 10)
  else none

/-- The hex-group loop inside Go `parseIPv6`: returns the accumulated value,
the number of digits read and the rest of the string, or `none` on more than
four digits. -/
def hexLoop : List Char → Nat → Nat → Option (Nat × Nat × List Char)
  | [], acc, off => some (acc, off, [])
  | c :: rest, acc, off =>
    match hexVal c with
    | none => some (acc, off, c :: rest)
    | some d =>
      let acc1 := acc * 16 + d
      if off > 3 then none
      else if acc1 > 0xffff then none
      else hexLoop rest acc1 (off + 1)

/-- Writes the four bytes `f` into `ip` at index `i` (`ip[i:i+4]`). -/
def put4 (ip : List Nat) (i : Nat) (f : List Nat) : List Nat :=
  (((ip.set i (f.getD 0 0)).set (i + 1) (f.getD 1 0)).set (i + 2) (f.getD 2 0)).set (i + 3)
    (f.getD 3 0)

/-- The main loop of Go `parseIPv6` (`for i < 16`), at most eight rounds.
The state is the rest of the string, the write index `i`, the address buffer
and the position of the ellipsis (`none` for -1); `none` is a parse error. -/
def parseIPv6Loop :
    Nat → List Char → Nat → List Nat → Option Nat →
      Option (List Char × Nat × List Nat × Option Nat)
  | 0, s, i, ip, ell => some (s, i, ip, ell)
  | fuel + 1, s, i, ip, ell =>
    if i ≥ 16 then some (s, i, ip, ell)
    else
      match hexLoop s 0 0 with
      | none => none
      | some (acc, off, rest) =>
        if off = 0 then none
        else if rest.head? = some '.' then
          if ell = none ∧ i ≠ 12 then none
          else if i + 4 > 16 then none
          else
            match parseIPv4Fields s with
            | none => none
            | some f => some ([], i + 4, put4 ip i f, ell)
        else
          let ip1 := (ip.set i (acc / 256 % 256)).set (i + 1) (acc % 256)
          match rest with
          | [] => some ([], i + 2, ip1, ell)
          | c :: rest1 =>
            if c ≠ ':' then none
            else
              match rest1 with
              | [] => none
              | ':' :: rest2 =>
                if ell.isSome then none
                else if rest2 = [] then some ([], i + 2, ip1, some (i + 2))
                else parseIPv6Loop fuel rest2 (i + 2) ip1 (some (i + 2))
              | _ :: _ => parseIPv6Loop fuel rest1 (i + 2) ip1 ell

/-- Go `parseIPv6` for a string without zone.  A string with a zone is never
accepted by `ParseCIDR`, so `%` is rejected here. -/
def parseIPv6 (s0 : List Char) : Option (List Nat) :=
  if '%' ∈ s0 then none
  else
    let lead := decide (s0.take 2 = [':', ':'])
    let s := if lead then s0.drop 2 else s0
    let ell0 : Option Nat := if lead then some 0 else none
    if lead ∧ s = [] then some (List.replicate 16 0)
    else
      match parseIPv6Loop 8 s 0 (List.replicate 16 0) ell0 with
      | none => none
      | some (rest, i, ip, ell) =>
        if rest ≠ [] then none
        else if i < 16 then
          match ell with
          | none => none
          | some e =>
            some (ip.take e ++ List.replicate (16 - i) 0 ++ (ip.drop e).take (i - e))
        else if ell.isSome then none
        else some ip

/-- The scan of Go `netip.ParseAddr` for the first `.`, `:` or `%`. -/
def parseAddrScan (whole : List Char) : List Char → Option Addr
  | [] => none
  | c :: rest =>
    if c = '.' then (parseIPv4Fields whole).map Addr.v4
    else if c = ':' then (parseIPv6 whole).map Addr.v6
    else if c = '%' then none
    else parseAddrScan whole rest

/-- Go `netip.ParseAddr`, restricted to results without zone. -/
def ParseAddr (s : List Char) : Option Addr :=
  parseAddrScan s s

/-- The loop of Go `dtoi`: value so far, digits read so far. -/
def dtoiLoop : List Char → Nat → Nat → Nat × Nat × Bool
  | [], n, i => if i = 0 then (0, 0, false) else (n, i, true)
  | c :: rest, n, i =>
    if isDigit c then
      let n1 := n * 10 + (c.toNat - '0'.toNat)
      if n1 ≥ 0xFFFFFF then (0xFFFFFF, i, false)
      else dtoiLoop rest n1 (i + 1)
    else if i = 0 then (0, 0, false) else (n, i, true)

/-- Go `dtoi`. -/
def dtoi (s : List Char) : Nat × Nat × Bool :=
  dtoiLoop s 0 0

/-- The first part of Go `net.ParseCIDR`: the address before the first `/`
and the prefix length after it, with all the checks of `ParseCIDR`. -/
def parseCIDRParts (s : String) : Option (Addr × Nat) :=
  let cs := s.toList
  if '/' ∈ cs then
    let addr := cs.takeWhile (fun c => c != '/')
    let mask := (cs.dropWhile (fun c => c != '/')).drop 1
    match ParseAddr addr with
    | none => none
    | some ipAddr =>
      let r := dtoi mask
      if r.2.2 = false ∨ r.2.1 ≠ mask.length ∨ r.1 > ipAddr.BitLen then none
      else some (ipAddr, r.1)
  else none

/-- Go `net.ParseCIDR`: the 16-byte address and the network, or `none` for a
parse error. -/
def ParseCIDR (s : String) : Option (List Nat × IPNet) :=
  match parseCIDRParts s with
  | none => none
  | some (ipAddr, n) =>
    let m := CIDRMask n ipAddr.BitLen
    some (ipAddr.As16, { IP := ipMask ipAddr.As16 m, Mask := m })

/-- Decimal digits of a byte, as in Go's dotted-quad output. -/
def byteDec (b : Nat) : List Char :=
  let d (k : Nat) : Char := Char.ofNat ('0'.toNat + k % 10)
  if b ≥ 100 then [d (b / 100), d (b / 10), d b]
  else if b ≥ 10 then [d (b / 10), d b]
  else [d b]

/-- Dotted-quad text of a 4-byte address. -/
def string4 (p : List Nat) : String :=
  String.mk (byteDec (p.getD 0 0) ++ ['.'] ++ byteDec (p.getD 1 0) ++ ['.'] ++
    byteDec (p.getD 2 0) ++ ['.'] ++ byteDec (p.getD 3 0))

/-- One lower-case hexadecimal digit. -/
def hexDigit (k : Nat) : Char :=
  if k % 16 < 10 then Char.ofNat ('0'.toNat + k % 16)
  else Char.ofNat ('a'.toNat + (k % 16 - 10))

/-- Go `appendHex`: a 16-bit group in lower-case hex without leading zeros. -/
def appendHex (x : Nat) : List Char :=
  if x ≥ 0x1000 then [hexDigit (x / 0x1000), hexDigit (x / 0x100), hexDigit (x / 0x10), hexDigit x]
  else if x ≥ 0x100 then [hexDigit (x / 0x100), hexDigit (x / 0x10), hexDigit x]
  else if x ≥ 0x10 then [hexDigit (x / 0x10), hexDigit x]
  else [hexDigit x]

/-- The 16-bit group `i` of a 16-byte address (Go `v6u16`). -/
def v6u16 (ip : List Nat) (i : Nat) : Nat :=
  ip.getD (2 * i) 0 * 256 + ip.getD (2 * i + 1) 0

/-- Length of the run of zero groups starting at group `i` (at most `k`
groups are looked at). -/
def zeroRun (ip : List Nat) : Nat → Nat → Nat
  | 0, _ => 0
  | k + 1, i => if i < 8 ∧ v6u16 ip i = 0 then zeroRun ip k (i + 1) + 1 else 0

/-- The first loop of Go `appendTo6`: the longest run of at least two zero
groups, as (start, end), or (255, 255) when there is none.  `k` groups are
still to be visited, starting at group `i`. -/
def findZeros (ip : List Nat) : Nat → Nat → Nat × Nat → Nat × Nat
  | 0, _, z => z
  | k + 1, i, z =>
    let l := zeroRun ip 8 i
    if l ≥ 2 ∧ l > z.2 - z.1 then findZeros ip k (i + 1) (i, i + l)
    else findZeros ip k (i + 1) z

/-- The second loop of Go `appendTo6`: writes the groups from `i` on. -/
def writeGroups (ip : List Nat) (z : Nat × Nat) : Nat → Nat → List Char
  | 0, _ => []
  | k + 1, i =>
    if i ≥ 8 then []
    else if i = z.1 then
      if z.2 ≥ 8 then [':', ':']
      else [':', ':'] ++ appendHex (v6u16 ip z.2) ++ writeGroups ip z k (z.2 + 1)
    else
      (if i > 0 then [':'] else []) ++ appendHex (v6u16 ip i) ++ writeGroups ip z k (i + 1)

/-- Go `IP.String`. -/
def ipString (ip : List Nat) : String :=
  if ip.length = 0 then "<nil>"
  else if ip.length ≠ 4 ∧ ip.length ≠ 16 then
    String.mk ('?' :: ip.flatMap (fun b => [hexDigit (b / 16), hexDigit b]))
  else if (To4 ip).length = 4 then string4 (To4 ip)
  else String.mk (writeGroups ip (findZeros ip 8 0 (255, 255)) 8 0)

/-! ## `explodeCIDRs` (source lines 36-46) -/

/-- The `for` loop of `explodeCIDRs`: while `ipnet.Contains(ip)`, append
`ip.String()` and call `inc(ip)`.  `none` when the fuel runs out with the
loop still running. -/
def explodeLoop (ipnet : IPNet) : Nat → List Nat → List String → Option (List String)
  | 0, _, _ => none
  | fuel + 1, ip, ips =>
    if Contains ipnet ip then explodeLoop ipnet fuel (inc ip) (ips ++ [ipString ip])
    else some ips

/-- The function `explodeCIDRs`: `Except.error` is the parse error returned
with a `nil` slice; `none` means the loop did not finish within `fuel`
rounds. -/
def explodeCIDRs (fuel : Nat) (cidr : String) : Option (Except String (List String)) :=
  match ParseCIDR cidr with
  | none => some (Except.error ("invalid CIDR address: " ++ cidr))
  | some (ip, ipnet) =>
    (explodeLoop ipnet fuel (ipMask ip ipnet.Mask) []).map Except.ok

/-! ## `getHeader` (source lines 57-89) -/

/-- The type `http.Header` of a response or request: a mapping from header
names to value lists.  The standard transport never returns a `nil` mapping
with a response, so a value of this type is a present mapping. -/
abbrev Header := List (String × List String)

/-- The type `Result` (source lines 18-22); `Headers = none` is the `nil`
mapping. -/
structure Result where
  Host : String
  Port : Int
  Headers : Option Header
  deriving DecidableEq

/-- The cancellation signal as the HTTP client observes it while it handles a
request: `done` says that the signal has fired. -/
structure Context where
  done : Bool
  deriving DecidableEq

/-- The fields of `url.URL` that matter here. -/
structure URL where
  Scheme : String
  Host : String
  Path : String
  deriving DecidableEq

/-- The fields of `http.Request` that `getHeader` sets. -/
structure Request where
  ctx : Context
  Method : String
  URL : URL
  Header : Header
  deriving DecidableEq

/-- The fields of `http.Response` that `getHeader` reads. -/
structure Response where
  StatusCode : Nat
  Header : Header
  deriving DecidableEq

/-- The `http.Client` built at the start of `getHeader`. -/
structure Client where
  Timeout : Nat
  DisableKeepAlives : Bool
  MaxIdleConnsPerHost : Nat
  InsecureSkipVerify : Bool
  deriving DecidableEq

/-- Go `http.NewRequestWithContext` with a valid method, a non-nil context and
no body: it fails exactly when `url.Parse` (the parameter `parse`) fails. -/
def NewRequestWithContext (parse : String → Option URL) (ctx : Context) (method url : String) :
    Option Request :=
  match parse url with
  | none => none
  | some u => some { ctx := ctx, Method := method, URL := u, Header := [] }

/-- What one call of `getHeader` does: the requests handed to `client.Do`, in
order, and the values sent on `resultsChan`, in order. -/
structure Probe where
  requests : List Request
  sent : List Result
  deriving DecidableEq

/-- The fixed `User-Agent` value. -/
def userAgent : String :=
  "Mozilla/5.0 (Windows NT 10.0; Win64; x64) AppleWebKit/537.36 (KHTML, like Gecko) Chrome/74.0.3729.169 Safari/537.36"

/-- The function `getHeader`.  `parse` is `url.Parse`; `Do c k r` is the
outcome of the `k`-th call `client.Do(r)` on client `c` (`Except.error` for a
non-nil `err`). -/
def getHeader (parse : String → Option URL)
    (Do : Client → Nat → Request → Except String Response)
    (ctx : Context) (host : String) (port : Int) (timeout : Nat) : Probe :=
  let client : Client :=
    { Timeout := timeout, DisableKeepAlives := true, MaxIdleConnsPerHost := 0,
      InsecureSkipVerify := true }
  let headers : Header := [("User-Agent", [userAgent])]
  match NewRequestWithContext parse ctx "HEAD" ("https://" ++ host ++ ":" ++ toString port) with
  | none => { requests := [], sent := [{ Host := host, Port := port, Headers := none }] }
  | some request0 =>
    let request : Request := { request0 with Header := headers }
    match Do client 0 request with
    | Except.ok response =>
      { requests := [request],
        sent := [{ Host := host, Port := port, Headers := some response.Header }] }
    | Except.error _ =>
      let request1 : Request := { request with URL := { request.URL with Scheme := "http" } }
      match Do client 1 request1 with
      | Except.error _ =>
        { requests := [request, request1],
          sent := [{ Host := host, Port := port, Headers := none }] }
      | Except.ok response =>
        { requests := [request, request1],
          sent := [{ Host := host, Port := port, Headers := some response.Header }] }

/-! ## `worker` (source lines 91-105) -/

/-- What one round of the `select` in `worker` sees: a host received from
`targets`, the closed queue, or the fired cancellation signal. -/
inductive SelectEvent where
  | recv (host : String)
  | closed
  | done
  deriving DecidableEq

/-- The inner loop of `worker`: `for _, port := range ports`. -/
def portsLoop (parse : String → Option URL)
    (Do : Client → Nat → Request → Except String Response)
    (ctx : Context) (timeout : Nat) (host : String) : List Int → List Result
  | [] => []
  | port :: rest =>
    (getHeader parse Do ctx host port timeout).sent ++ portsLoop parse Do ctx timeout host rest

/-- The function `worker`, run against the sequence of events its `select`
sees: the results it has sent, in order, and whether it has returned (`false`:
it is waiting in the `select`). -/
def worker (parse : String → Option URL)
    (Do : Client → Nat → Request → Except String Response)
    (ctx : Context) (ports : List Int) (timeout : Nat) :
    List SelectEvent → List Result → List Result × Bool
  | [], out => (out, false)
  | SelectEvent.recv host :: rest, out =>
    worker parse Do ctx ports timeout rest (out ++ portsLoop parse Do ctx timeout host ports)
  | SelectEvent.closed :: _, out => (out, true)
  | SelectEvent.done :: _, out => (out, true)

/-! ## `main`: dispatch loop and collector (source lines 145-174) -/

/-- The dispatch loop of `main` (lines 152-165): the hosts sent on
`targetsChan`, in order.  `none` when an expansion does not finish within
`fuel` rounds. -/
def dispatchLoop (fuel : Nat) : List String → List String → Option (List String)
  | [], queue => some queue
  | target :: rest, queue =>
    match ParseCIDR target with
    | some _ =>
      match explodeCIDRs fuel target with
      | none => none
      | some (Except.error _) => dispatchLoop fuel rest queue
      | some (Except.ok ips) => dispatchLoop fuel rest (queue ++ ips)
    | none => dispatchLoop fuel rest (queue ++ [target])

/-- The collector loop of `main` (lines 168-173) with `n` receives still to
do, against the results that arrive on `resultsChan`; `none` when it waits for
a result that never arrives. -/
def collectorLoop : Nat → List Result → List Result → Option (List Result)
  | 0, _, results => some results
  | _ + 1, [], _ => none
  | n + 1, res :: arrivals, results => collectorLoop n arrivals (results ++ [res])

/-- The collector of `main`: its loop bound is `len(targets)*len(portsInt)`. -/
def collector (targets : List String) (portsInt : List Int) (arrivals : List Result) :
    Option (List Result) :=
  collectorLoop (targets.length * portsInt.length) arrivals []

/-! ## Vocabulary of the statements, and concrete environments -/

/-- A URL parser that accepts every string (for concrete runs). -/
def parseAny (s : String) : Option URL :=
  some { Scheme := "https", Host := s, Path := "" }

/-- A URL parser that rejects every string (for concrete runs). -/
def parseNone (_ : String) : Option URL := none

/-- A client whose encrypted attempt (call 0) fails and whose plaintext
attempt (call 1) answers 404 with one header. -/
def doFallback (_ : Client) (k : Nat) (_ : Request) : Except String Response :=
  if k = 0 then Except.error "tls: handshake failure"
  else Except.ok { StatusCode := 404, Header := [("Server", ["nginx"])] }

/-- A client that honours the context of the request, as Go's does: a request
whose context is done fails, any other is answered 200. -/
def doHonourCtx (_ : Client) (_ : Nat) (r : Request) : Except String Response :=
  if r.ctx.done then Except.error "context canceled"
  else Except.ok { StatusCode := 200, Header := [("Server", ["nginx"])] }

/-- The client of `getHeader` for a given timeout. -/
def probeClient (timeout : Nat) : Client :=
  { Timeout := timeout, DisableKeepAlives := true, MaxIdleConnsPerHost := 0,
    InsecureSkipVerify := true }

/-- The request `getHeader` builds from a parsed URL. -/
def probeRequest (ctx : Context) (u : URL) : Request :=
  { ctx := ctx, Method := "HEAD", URL := u, Header := [("User-Agent", [userAgent])] }

/-- The URL string of the encrypted attempt. -/
def probeURL (host : String) (port : Int) : String :=
  "https://" ++ host ++ ":" ++ toString port

/-- The address bytes of a parsed address: 4 for IPv4, 16 for IPv6. -/
def Addr.bytes : Addr → List Nat
  | .v4 b => b
  | .v6 b => b

/-- The addresses of the block of prefix length `n` around the parsed address
`a`, as byte sequences in ascending numeric order: the network address (the
address with its host bits cleared) first, the highest address last. -/
def blockAddresses (a : Addr) (n : Nat) : List (List Nat) :=
  (List.range (2 ^ (a.BitLen - n))).map
    (fun j => beBytes (a.BitLen / 8)
      (beVal a.bytes / 2 ^ (a.BitLen - n) * 2 ^ (a.BitLen - n) + j))

/-- The block is an IPv6 block of prefix length below 96 that contains the
IPv4-mapped range `::ffff:0:0/96`. -/
def coversMappedRange (a : Addr) (n : Nat) : Prop :=
  match a with
  | .v4 _ => False
  | .v6 b => n < 96 ∧ 0xffff00000000 / 2 ^ (128 - n) = beVal b / 2 ^ (128 - n)

instance (a : Addr) (n : Nat) : Decidable (coversMappedRange a n) := by
  unfold coversMappedRange
  cases a <;> infer_instance

/-! ### Lemmas about `inc` -/

theorem beVal_append_singleton (xs : List Nat) (b : Nat) :
    beVal (xs ++ [b]) = beVal xs * 256 + b := by
  simp [beVal, List.foldl_append]

theorem beBytes_length (n v : Nat) : (beBytes n v).length = n := by
  induction n generalizing v with
  | zero => rfl
  | succ n ih => simp [beBytes, ih]

theorem isBytes_append {xs ys : List Nat} :
    IsBytes (xs ++ ys) ↔ IsBytes xs ∧ IsBytes ys := by
  unfold IsBytes
  constructor
  · intro h
    exact ⟨fun b hb => h b (List.mem_append_left _ hb),
      fun b hb => h b (List.mem_append_right _ hb)⟩
  · rintro ⟨h1, h2⟩ b hb
    rcases List.mem_append.mp hb with hb | hb
    · exact h1 b hb
    · exact h2 b hb

theorem isBytes_singleton {b : Nat} : IsBytes [b] ↔ b < 256 := by
  simp [IsBytes]

theorem beBytes_isBytes (n v : Nat) : IsBytes (beBytes n v) := by
  induction n generalizing v with
  | zero => intro b hb; simp [beBytes] at hb
  | succ n ih =>
    rw [beBytes, isBytes_append, isBytes_singleton]
    exact ⟨ih _, Nat.mod_lt _ (by norm_num)⟩

theorem beVal_lt (ip : List Nat) (h : IsBytes ip) : beVal ip < 256 ^ ip.length := by
  induction ip using List.reverseRecOn with
  | nil => simp [beVal]
  | append_singleton xs b ih =>
    rw [isBytes_append, isBytes_singleton] at h
    have h1 := ih h.1
    rw [beVal_append_singleton, List.length_append, List.length_singleton, pow_succ]
    nlinarith [h.2]

theorem beVal_beBytes (n v : Nat) : beVal (beBytes n v) = v % 256 ^ n := by
  induction n generalizing v with
  | zero => simp [beBytes, beVal, Nat.mod_one]
  | succ n ih =>
    rw [beBytes, beVal_append_singleton, ih, pow_succ, Nat.mul_comm (256 ^ n) 256,
      Nat.mod_mul, Nat.mul_comm 256]
    omega

theorem beBytes_beVal (ip : List Nat) (h : IsBytes ip) :
    beBytes ip.length (beVal ip) = ip := by
  induction ip using List.reverseRecOn with
  | nil => rfl
  | append_singleton xs b ih =>
    rw [isBytes_append, isBytes_singleton] at h
    rw [List.length_append, List.length_singleton, beBytes, beVal_append_singleton]
    have h1 : (beVal xs * 256 + b) / 256 = beVal xs := by omega
    have h2 : (beVal xs * 256 + b) % 256 = b := by omega
    rw [h1, h2, ih h.1]

theorem beBytes_mod (n v : Nat) : beBytes n (v % 256 ^ n) = beBytes n v := by
  have h := beBytes_beVal (beBytes n v) (beBytes_isBytes n v)
  rw [beBytes_length, beVal_beBytes] at h
  exact h

theorem incLoop_append (j : Nat) (xs ys : List Nat) (hj : j ≤ xs.length) :
    incLoop j (xs ++ ys) = incLoop j xs ++ ys := by
  induction j generalizing xs with
  | zero => rfl
  | succ j ih =>
    have hlt : j < xs.length := hj
    have hget : (xs ++ ys).getD j 0 = xs.getD j 0 := by
      simp [List.getD_eq_getElem?_getD, List.getElem?_append_left hlt]
    have hset : ∀ v, (xs ++ ys).set j v = xs.set j v ++ ys := by
      intro v; rw [List.set_append_left _ _ hlt]
    have hget2 : ∀ v, (xs.set j v ++ ys).getD j 0 = (xs.set j v).getD j 0 := by
      intro v
      have : j < (xs.set j v).length := by simpa using hlt
      simp [List.getD_eq_getElem?_getD, List.getElem?_append_left this]
    simp only [incLoop, hget, hset, hget2]
    split
    · rfl
    · exact ih _ (by simp; omega)

theorem inc_append_singleton (xs : List Nat) (b : Nat) :
    inc (xs ++ [b]) =
      if (b + 1) % 256 > 0 then xs ++ [(b + 1) % 256] else inc xs ++ [0] := by
  have hget : (xs ++ [b]).getD xs.length 0 = b := by
    simp [List.getD_eq_getElem?_getD]
  have hset : ∀ v, (xs ++ [b]).set xs.length v = xs ++ [v] := by
    intro v; simp
  have hget2 : ∀ v, (xs ++ [v]).getD xs.length 0 = v := by
    intro v; simp [List.getD_eq_getElem?_getD]
  simp only [inc, List.length_append, List.length_singleton, incLoop, hget, hset, hget2]
  split
  · rfl
  · rename_i h
    have h0 : (b + 1) % 256 = 0 := by omega
    rw [h0, incLoop_append _ _ _ (le_refl _)]

theorem inc_eq_beBytes (ip : List Nat) (h : IsBytes ip) :
    inc ip = beBytes ip.length ((beVal ip + 1) % 2 ^ (8 * ip.length)) := by
  have hpow : ∀ n : Nat, 2 ^ (8 * n) = 256 ^ n := by
    intro n; rw [pow_mul]; norm_num
  rw [hpow, beBytes_mod]
  induction ip using List.reverseRecOn with
  | nil => rfl
  | append_singleton xs b ih =>
    rw [isBytes_append, isBytes_singleton] at h
    rw [inc_append_singleton, List.length_append, List.length_singleton, beBytes,
      beVal_append_singleton]
    split
    · rename_i hpos
      have h1 : (beVal xs * 256 + b + 1) / 256 = beVal xs := by omega
      have h2 : (beVal xs * 256 + b + 1) % 256 = (b + 1) % 256 := by omega
      rw [h1, h2, beBytes_beVal xs h.1]
    · rename_i hpos
      have h1 : (beVal xs * 256 + b + 1) / 256 = beVal xs + 1 := by omega
      have h2 : (beVal xs * 256 + b + 1) % 256 = 0 := by omega
      rw [h1, h2, ih h.1]


/-! ### Masks and containment as arithmetic -/

theorem beVal_nil : beVal [] = 0 := rfl

theorem beVal_cons (x : Nat) (xs : List Nat) :
    beVal (x :: xs) = x * 256 ^ xs.length + beVal xs := by
  induction xs using List.reverseRecOn generalizing x with
  | nil => simp [beVal]
  | append_singleton ys b ih =>
    rw [← List.cons_append, beVal_append_singleton, ih, beVal_append_singleton,
      List.length_append, List.length_singleton, pow_succ]
    ring

theorem isBytes_cons {x : Nat} {xs : List Nat} :
    IsBytes (x :: xs) ↔ x < 256 ∧ IsBytes xs := by
  simp [IsBytes]

theorem isBytes_nil : IsBytes [] := by
  intro b hb; cases hb

theorem pow256 (n : Nat) : 256 ^ n = 2 ^ (8 * n) := by
  rw [pow_mul]; norm_num

set_option maxRecDepth 100000 in
theorem land_mask_byte : ∀ n, n < 8 → ∀ x, x < 256 →
    x &&& (0xff - (0xff >>> n)) = x / 2 ^ (8 - n) * 2 ^ (8 - n) := by
  decide

theorem land_ff (x : Nat) (hx : x < 256) : x &&& 0xff = x := by
  have h := Nat.and_pow_two_sub_one_eq_mod x 8
  simpa [Nat.mod_eq_of_lt hx] using h

theorem cidrMaskLoop_length (l n : Nat) : (cidrMaskLoop l n).length = l := by
  induction l generalizing n with
  | zero => rfl
  | succ l ih =>
    rw [cidrMaskLoop]
    split <;> simp [ih]

theorem add_div_mul_helper (a v P : Nat) (hP : 0 < P) :
    (a * P + v) / P * P = a * P + v / P * P := by
  rw [Nat.add_comm, Nat.add_mul_div_right _ _ hP, Nat.add_mul, Nat.add_comm]

theorem add_div_mul_helper2 (x v Q R : Nat) (hQ : 0 < Q) (hv : v < Q) :
    (x * Q + v) / (Q * R) = x / R := by
  rw [← Nat.div_div_eq_div_mul, Nat.add_comm, Nat.add_mul_div_right _ _ hQ,
    Nat.div_eq_of_lt hv, Nat.zero_add]

/-- The bytewise AND with a prefix mask clears the low `8 * l - n` bits. -/
theorem zipWith_land_cidrMaskLoop (l n : Nat) (xs : List Nat) (hl : xs.length = l)
    (hb : IsBytes xs) (hn : n ≤ 8 * l) :
    IsBytes (List.zipWith (fun a b => a &&& b) xs (cidrMaskLoop l n)) ∧
      beVal (List.zipWith (fun a b => a &&& b) xs (cidrMaskLoop l n)) =
        beVal xs / 2 ^ (8 * l - n) * 2 ^ (8 * l - n) := by
  induction l generalizing n xs with
  | zero =>
    cases xs with
    | nil => simp [cidrMaskLoop, beVal, isBytes_nil]
    | cons x xs => simp at hl
  | succ l ih =>
    cases xs with
    | nil => simp at hl
    | cons x xs =>
      have hl1 : xs.length = l := by simpa using hl
      rw [isBytes_cons] at hb
      have hv := beVal_lt xs hb.2
      rw [hl1] at hv
      have hlen : ∀ k, (List.zipWith (fun a b => a &&& b) xs (cidrMaskLoop l k)).length = l := by
        intro k
        rw [List.length_zipWith, cidrMaskLoop_length, hl1, Nat.min_self]
      rw [cidrMaskLoop]
      split
      · rename_i h8
        obtain ⟨ib, iv⟩ := ih (n - 8) xs hl1 hb.2 (by omega)
        have hk : 8 * l - (n - 8) = 8 * (l + 1) - n := by omega
        rw [hk] at iv
        rw [List.zipWith_cons_cons, land_ff x hb.1, isBytes_cons, beVal_cons, beVal_cons, iv,
          hlen, hl1]
        refine ⟨⟨hb.1, ib⟩, ?_⟩
        generalize hK : 8 * (l + 1) - n = K at *
        have hsplit : 256 ^ l = 2 ^ (8 * l - K) * 2 ^ K := by
          rw [pow256, ← pow_add]; congr 1; omega
        rw [hsplit, ← Nat.mul_assoc, add_div_mul_helper _ _ _ (Nat.pos_pow_of_pos _ (by norm_num))]
      · rename_i h8
        have hn8 : n < 8 := by omega
        obtain ⟨ib, iv⟩ := ih 0 xs hl1 hb.2 (by omega)
        have hz : beVal xs / 2 ^ (8 * l - 0) = 0 := by
          rw [Nat.sub_zero, ← pow256]; exact Nat.div_eq_of_lt hv
        rw [hz, Nat.zero_mul] at iv
        have hbyte := land_mask_byte n hn8 x hb.1
        have hk : 2 ^ (8 * (l + 1) - n) = 256 ^ l * 2 ^ (8 - n) := by
          rw [pow256, ← pow_add]; congr 1; omega
        rw [List.zipWith_cons_cons, isBytes_cons, beVal_cons, beVal_cons, iv, hlen, hl1, hk,
          add_div_mul_helper2 _ _ _ _ (Nat.pos_pow_of_pos _ (by norm_num)) hv, hbyte]
        generalize 2 ^ (8 - n) = R at *
        refine ⟨⟨?_, ib⟩, ?_⟩
        · have := Nat.div_mul_le_self x R
          omega
        · ring

/-- Two byte sequences of the same length with the same value are equal. -/
theorem beVal_injective (xs ys : List Nat) (hx : IsBytes xs) (hy : IsBytes ys)
    (hl : xs.length = ys.length) (hv : beVal xs = beVal ys) : xs = ys := by
  rw [← beBytes_beVal xs hx, ← beBytes_beVal ys hy, hl, hv]

/-- The index loop of `Contains` compares the two masked sequences. -/
theorem range_all_land (nn ip m : List Nat) (h1 : nn.length = ip.length)
    (h2 : m.length = ip.length) :
    (List.range ip.length).all
        (fun i => nn.getD i 0 &&& m.getD i 0 == ip.getD i 0 &&& m.getD i 0) =
      decide (List.zipWith (fun a b => a &&& b) nn m =
        List.zipWith (fun a b => a &&& b) ip m) := by
  rw [Bool.eq_iff_iff]
  simp only [List.all_eq_true, List.mem_range, beq_iff_eq, decide_eq_true_eq]
  have key : ∀ i (hi : i < ip.length),
      (nn.getD i 0 &&& m.getD i 0 = ip.getD i 0 &&& m.getD i 0) ↔
        (List.zipWith (fun a b => a &&& b) nn m)[i]? =
          (List.zipWith (fun a b => a &&& b) ip m)[i]? := by
    intro i hi
    have hn : i < nn.length := by omega
    have hm : i < m.length := by omega
    simp only [List.getD_eq_getElem?_getD, List.getElem?_zipWith,
      List.getElem?_eq_getElem hn, List.getElem?_eq_getElem hm, List.getElem?_eq_getElem hi,
      Option.getD_some, Option.map_some', Option.bind_some, Option.some.injEq]
  constructor
  · intro h
    apply List.ext_getElem?
    intro i
    by_cases hi : i < ip.length
    · exact (key i hi).mp (h i hi)
    · rw [List.getElem?_eq_none (by simp; omega), List.getElem?_eq_none (by simp; omega)]
  · intro h i hi
    exact (key i hi).mpr (by rw [h])

theorem incLoop_length (j : Nat) (ip : List Nat) : (incLoop j ip).length = ip.length := by
  induction j generalizing ip with
  | zero => rfl
  | succ j ih =>
    simp only [incLoop]
    split
    · simp
    · rw [ih]; simp

theorem inc_length (ip : List Nat) : (inc ip).length = ip.length :=
  incLoop_length _ _

/-! ### The expansion loop -/

theorem inc_beBytes (w v : Nat) : inc (beBytes w v) = beBytes w (v + 1) := by
  rw [inc_eq_beBytes _ (beBytes_isBytes w v), beBytes_length, beVal_beBytes, ← pow256,
    beBytes_mod]
  have h : beBytes w ((v % 256 ^ w + 1) % 256 ^ w) = beBytes w ((v + 1) % 256 ^ w) := by
    rw [Nat.add_mod (v % 256 ^ w), Nat.mod_mod, ← Nat.add_mod]
  rw [← beBytes_mod w (v % 256 ^ w + 1), h, beBytes_mod]

/-- The expansion loop on a run of addresses: when containment, as a function
`c` of the address value, holds on `s, ..., s + m - 1` and fails at the next
address (after wrap-around), the loop started at `s` appends exactly these `m`
addresses and returns. -/
theorem explodeLoop_segment (ipnet : IPNet) (w : Nat) (c : Nat → Bool)
    (hc : ∀ v, v < 256 ^ w → Contains ipnet (beBytes w v) = c v)
    (m s : Nat) (hin : ∀ j, j < m → c (s + j) = true) (hbound : s + m ≤ 256 ^ w)
    (hout : c ((s + m) % 256 ^ w) = false) (fuel : Nat) (hf : m < fuel) (acc : List String) :
    explodeLoop ipnet fuel (beBytes w s) acc =
      some (acc ++ (List.range m).map (fun j => ipString (beBytes w (s + j)))) := by
  induction m generalizing s fuel acc with
  | zero =>
    obtain ⟨f, rfl⟩ : ∃ f, fuel = f + 1 := ⟨fuel - 1, by omega⟩
    have hpos : 0 < 256 ^ w := Nat.pos_pow_of_pos _ (by norm_num)
    rw [explodeLoop, ← beBytes_mod, hc _ (Nat.mod_lt _ hpos)]
    simp only [Nat.add_zero] at hout
    simp [hout]
  | succ m ih =>
    obtain ⟨f, rfl⟩ : ∃ f, fuel = f + 1 := ⟨fuel - 1, by omega⟩
    have h0 := hin 0 (by omega)
    rw [Nat.add_zero] at h0
    rw [explodeLoop, hc s (by omega), h0]
    simp only [if_true]
    rw [inc_beBytes, ih (s + 1) (fun j hj => by
        have := hin (j + 1) (by omega)
        rwa [show s + (j + 1) = s + 1 + j by omega] at this)
      (by omega) (by rwa [show s + 1 + m = s + (m + 1) by omega]) f (by omega)]
    rw [List.range_succ_eq_map, List.map_cons, List.map_map, List.append_assoc]
    simp only [List.singleton_append, Nat.add_zero, Function.comp_def, Nat.succ_eq_add_one]
    congr 3
    apply List.map_congr_left
    intro j _
    rw [show s + 1 + j = s + (j + 1) by omega]

theorem inc_isBytes (ip : List Nat) (h : IsBytes ip) : IsBytes (inc ip) := by
  rw [inc_eq_beBytes ip h]; exact beBytes_isBytes _ _

/-- An expansion loop whose containment test never fails does not return. -/
theorem explodeLoop_forever (ipnet : IPNet) (w : Nat)
    (hc : ∀ ip : List Nat, ip.length = w → IsBytes ip → Contains ipnet ip = true)
    (fuel : Nat) (ip : List Nat) (hl : ip.length = w) (hb : IsBytes ip) (acc : List String) :
    explodeLoop ipnet fuel ip acc = none := by
  induction fuel generalizing ip acc with
  | zero => rfl
  | succ f ih =>
    rw [explodeLoop, hc ip hl hb]
    simp only [if_true]
    exact ih _ (by rw [inc_length, hl]) (inc_isBytes ip hb) _

theorem To4_of_length_four (ip : List Nat) (h : ip.length = 4) : To4 ip = ip := by
  simp [To4, h]

theorem ne_nil_of_length_four (ip : List Nat) (h : ip.length = 4) : ip ≠ [] := by
  intro e; rw [e] at h; simp at h

/-- Containment in an IPv4 network with a prefix mask is equality of the
address value and the network number above the host bits. -/
theorem contains_v4 (nn ip : List Nat) (n : Nat) (hn : n ≤ 32) (hnl : nn.length = 4)
    (hnb : IsBytes nn) (hil : ip.length = 4) (hib : IsBytes ip) :
    Contains { IP := nn, Mask := cidrMaskLoop 4 n } ip =
      decide (beVal ip / 2 ^ (32 - n) = beVal nn / 2 ^ (32 - n)) := by
  have hml : (cidrMaskLoop 4 n).length = 4 := cidrMaskLoop_length 4 n
  have hnm : networkNumberAndMask { IP := nn, Mask := cidrMaskLoop 4 n } =
      (nn, cidrMaskLoop 4 n) := by
    simp [networkNumberAndMask, To4_of_length_four nn hnl, ne_nil_of_length_four nn hnl, hml,
      hnl]
  unfold Contains
  simp only [hnm, To4_of_length_four ip hil, ne_nil_of_length_four ip hil, ne_eq,
    not_false_eq_true, if_true, hil, hnl, not_true_eq_false, if_false]
  have hr := range_all_land nn ip (cidrMaskLoop 4 n) (by rw [hnl, hil]) (by rw [hml, hil])
  rw [hil] at hr
  rw [hr]
  obtain ⟨b1, v1⟩ := zipWith_land_cidrMaskLoop 4 n nn hnl hnb (by omega)
  obtain ⟨b2, v2⟩ := zipWith_land_cidrMaskLoop 4 n ip hil hib (by omega)
  have hk : 8 * 4 - n = 32 - n := by omega
  rw [hk] at v1 v2
  have hpos : 0 < 2 ^ (32 - n) := Nat.pos_pow_of_pos _ (by norm_num)
  rw [Bool.eq_iff_iff]
  simp only [decide_eq_true_eq]
  constructor
  · intro h
    have := congrArg beVal h
    rw [v1, v2] at this
    exact (Nat.eq_of_mul_eq_mul_right hpos this).symm
  · intro h
    apply beVal_injective _ _ b1 b2
    · simp [hnl, hil, hml]
    · rw [v1, v2, h]

/-- The index loop of `Contains` against a prefix mask is equality of the two
values above the host bits. -/
theorem range_all_cidrMask (l n : Nat) (nn ip : List Nat) (hn : n ≤ 8 * l)
    (hnl : nn.length = l) (hnb : IsBytes nn) (hil : ip.length = l) (hib : IsBytes ip) :
    (List.range l).all
        (fun i => nn.getD i 0 &&& (cidrMaskLoop l n).getD i 0 ==
          ip.getD i 0 &&& (cidrMaskLoop l n).getD i 0) =
      decide (beVal ip / 2 ^ (8 * l - n) = beVal nn / 2 ^ (8 * l - n)) := by
  have hml : (cidrMaskLoop l n).length = l := cidrMaskLoop_length l n
  have hr := range_all_land nn ip (cidrMaskLoop l n) (by rw [hnl, hil]) (by rw [hml, hil])
  rw [hil] at hr
  rw [hr]
  obtain ⟨b1, v1⟩ := zipWith_land_cidrMaskLoop l n nn hnl hnb hn
  obtain ⟨b2, v2⟩ := zipWith_land_cidrMaskLoop l n ip hil hib hn
  have hpos : 0 < 2 ^ (8 * l - n) := Nat.pos_pow_of_pos _ (by norm_num)
  rw [Bool.eq_iff_iff]
  simp only [decide_eq_true_eq]
  constructor
  · intro h
    have := congrArg beVal h
    rw [v1, v2] at this
    exact (Nat.eq_of_mul_eq_mul_right hpos this).symm
  · intro h
    apply beVal_injective _ _ b1 b2
    · simp [hnl, hil, hml]
    · rw [v1, v2, h]

theorem beBytes_add (a b v : Nat) :
    beBytes (a + b) v = beBytes a (v / 256 ^ b) ++ beBytes b v := by
  induction b generalizing v with
  | zero => simp [beBytes]
  | succ b ih =>
    rw [← Nat.add_assoc, beBytes, beBytes, ih, List.append_assoc, Nat.div_div_eq_div_mul,
      pow_succ, Nat.mul_comm 256]

theorem To4_append (p t : List Nat) (hp : p.length = 12) (ht : t.length = 4) :
    To4 (p ++ t) = if p = v4InV6Prefix then t else [] := by
  rcases p with _ | ⟨a0, _ | ⟨a1, _ | ⟨a2, _ | ⟨a3, _ | ⟨a4, _ | ⟨a5, _ | ⟨a6, _ | ⟨a7,
    _ | ⟨a8, _ | ⟨a9, _ | ⟨a10, _ | ⟨a11, _ | ⟨a12, p⟩⟩⟩⟩⟩⟩⟩⟩⟩⟩⟩⟩⟩ <;>
    simp at hp
  simp only [To4, v4InV6Prefix, isZeros, List.cons_append, List.nil_append, List.length_cons,
    ht, List.take, List.all_cons, List.all_nil, List.getD_cons_succ, List.getD_cons_zero,
    List.drop, List.cons.injEq, beq_iff_eq, Bool.and_true, Bool.and_eq_true, and_true]
  simp only [show (4 + 1 + 1 + 1 + 1 + 1 + 1 + 1 + 1 + 1 + 1 + 1 + 1 = 4) = False by simp,
    if_false, show (4 + 1 + 1 + 1 + 1 + 1 + 1 + 1 + 1 + 1 + 1 + 1 + 1 = 16) = True by simp,
    true_and]
  by_cases h : (a0 = 0 ∧ a1 = 0 ∧ a2 = 0 ∧ a3 = 0 ∧ a4 = 0 ∧ a5 = 0 ∧ a6 = 0 ∧ a7 = 0 ∧
      a8 = 0 ∧ a9 = 0) ∧ a10 = 255 ∧ a11 = 255
  · obtain ⟨⟨h0, h1, h2, h3, h4, h5, h6, h7, h8, h9⟩, h10, h11⟩ := h
    subst h0 h1 h2 h3 h4 h5 h6 h7 h8 h9 h10 h11
    simp
  · rw [if_neg h, if_neg]
    intro hh
    apply h
    obtain ⟨h0, h1, h2, h3, h4, h5, h6, h7, h8, h9, h10, h11⟩ := hh
    exact ⟨⟨h0, h1, h2, h3, h4, h5, h6, h7, h8, h9⟩, h10, h11⟩

/-- `To4` of a 16-byte address, by value: the last four bytes when the upper
96 bits are `0xffff`, `nil` otherwise. -/
theorem To4_beBytes16 (v : Nat) (hv : v < 256 ^ 16) :
    To4 (beBytes 16 v) = if v / 2 ^ 32 = 0xffff then beBytes 4 v else [] := by
  have hsplit : beBytes 16 v = beBytes 12 (v / 256 ^ 4) ++ beBytes 4 v := beBytes_add 12 4 v
  rw [hsplit, To4_append _ _ (beBytes_length _ _) (beBytes_length _ _)]
  have h32 : (256 : Nat) ^ 4 = 2 ^ 32 := by norm_num
  rw [h32]
  have hq : v / 2 ^ 32 < 256 ^ 12 := by
    rw [Nat.div_lt_iff_lt_mul (by norm_num)]
    calc v < 256 ^ 16 := hv
      _ = 256 ^ 12 * 2 ^ 32 := by norm_num
  have hiff : beBytes 12 (v / 2 ^ 32) = v4InV6Prefix ↔ v / 2 ^ 32 = 0xffff := by
    constructor
    · intro h
      have := congrArg beVal h
      rw [beVal_beBytes, Nat.mod_eq_of_lt hq] at this
      rw [this]; decide
    · intro h
      rw [h]; decide
  by_cases h : v / 2 ^ 32 = 0xffff
  · rw [if_pos h, if_pos (hiff.mpr h)]
  · rw [if_neg h, if_neg (fun hh => h (hiff.mp hh))]

theorem cidrMaskLoop_add (a b n : Nat) (hn : 8 * a ≤ n) :
    cidrMaskLoop (a + b) n = List.replicate a 0xff ++ cidrMaskLoop b (n - 8 * a) := by
  induction a generalizing n with
  | zero => simp
  | succ a ih =>
    rw [show a + 1 + b = (a + b) + 1 by omega, cidrMaskLoop, if_pos (by omega),
      ih (n - 8) (by omega), List.replicate_succ, List.cons_append]
    congr 3
    omega

/-! ### Shape of what the parser returns -/

theorem isBytes_set (xs : List Nat) (i v : Nat) (h : IsBytes xs) (hv : v < 256) :
    IsBytes (xs.set i v) := by
  intro b hb
  rcases List.mem_or_eq_of_mem_set hb with hb | hb
  · exact h b hb
  · rw [hb]; exact hv

theorem parseIPv4FieldsLoop_shape (s : List Char) (prev : Option Char)
    (val pos digLen : Nat) (fields f : List Nat) (hl : fields.length = 4)
    (hb : IsBytes fields)
    (h : parseIPv4FieldsLoop s prev val pos digLen fields = some f) :
    f.length = 4 ∧ IsBytes f := by
  induction s generalizing prev val pos digLen fields with
  | nil =>
    simp only [parseIPv4FieldsLoop] at h
    split at h
    · cases h
    · cases h
      exact ⟨by simp [hl], isBytes_set _ _ _ hb (Nat.mod_lt _ (by norm_num))⟩
  | cons c rest ih =>
    simp only [parseIPv4FieldsLoop] at h
    split at h
    · split at h
      · cases h
      · split at h
        · cases h
        · exact ih _ _ _ _ _ hl hb h
    · split at h
      · split at h
        · cases h
        · split at h
          · cases h
          · exact ih _ _ _ _ _ (by simp [hl])
              (isBytes_set _ _ _ hb (Nat.mod_lt _ (by norm_num))) h
      · cases h

theorem parseIPv4Fields_shape (s : List Char) (f : List Nat)
    (h : parseIPv4Fields s = some f) : f.length = 4 ∧ IsBytes f :=
  parseIPv4FieldsLoop_shape s none 0 0 0 [0, 0, 0, 0] f rfl (by decide) h

theorem parseAddrScan_v4 (whole rest : List Char) (bs : List Nat)
    (h : parseAddrScan whole rest = some (Addr.v4 bs)) : parseIPv4Fields whole = some bs := by
  induction rest with
  | nil => simp [parseAddrScan] at h
  | cons c rest ih =>
    simp only [parseAddrScan] at h
    split at h
    · cases hp : parseIPv4Fields whole with
      | none => rw [hp] at h; simp at h
      | some f => rw [hp] at h; simp at h; rw [h]
    · split at h
      · cases hp : parseIPv6 whole with
        | none => rw [hp] at h; simp at h
        | some f => rw [hp] at h; simp at h
      · split at h
        · cases h
        · exact ih h

theorem getD_lt_of_isBytes (xs : List Nat) (i : Nat) (h : IsBytes xs) : xs.getD i 0 < 256 := by
  rw [List.getD_eq_getElem?_getD]
  cases hi : xs[i]? with
  | none => simp
  | some b => exact h b (List.getElem?_mem hi)

theorem put4_shape (ip f : List Nat) (i : Nat) (hl : ip.length = 16) (hb : IsBytes ip)
    (hf : IsBytes f) : (put4 ip i f).length = 16 ∧ IsBytes (put4 ip i f) := by
  unfold put4
  refine ⟨by simp [hl], ?_⟩
  exact isBytes_set _ _ _ (isBytes_set _ _ _ (isBytes_set _ _ _ (isBytes_set _ _ _ hb
    (getD_lt_of_isBytes f 0 hf)) (getD_lt_of_isBytes f 1 hf)) (getD_lt_of_isBytes f 2 hf))
    (getD_lt_of_isBytes f 3 hf)

/-- The invariant of the main loop of `parseIPv6`. -/
theorem parseIPv6Loop_shape (fuel : Nat) (s : List Char) (i : Nat) (ip : List Nat)
    (ell : Option Nat) (rest : List Char) (i1 : Nat) (ip1 : List Nat) (ell1 : Option Nat)
    (h : parseIPv6Loop fuel s i ip ell = some (rest, i1, ip1, ell1))
    (hi : i ≤ 16) (hev : i % 2 = 0) (hl : ip.length = 16) (hb : IsBytes ip)
    (he : ∀ e, ell = some e → e ≤ i) :
    i1 ≤ 16 ∧ ip1.length = 16 ∧ IsBytes ip1 ∧ ∀ e, ell1 = some e → e ≤ i1 := by
  induction fuel generalizing s i ip ell with
  | zero =>
    simp only [parseIPv6Loop, Option.some.injEq, Prod.mk.injEq] at h
    obtain ⟨_, rfl, rfl, rfl⟩ := h
    exact ⟨hi, hl, hb, he⟩
  | succ fuel ih =>
    rw [parseIPv6Loop] at h
    split at h
    · simp only [Option.some.injEq, Prod.mk.injEq] at h
      obtain ⟨_, rfl, rfl, rfl⟩ := h
      exact ⟨hi, hl, hb, he⟩
    · rename_i hlt
      have hset : ∀ a b : Nat, ((ip.set i (a % 256)).set (i + 1) (b % 256)).length = 16 ∧
          IsBytes ((ip.set i (a % 256)).set (i + 1) (b % 256)) := by
        intro a b
        exact ⟨by simp [hl], isBytes_set _ _ _ (isBytes_set _ _ _ hb
          (Nat.mod_lt _ (by norm_num))) (Nat.mod_lt _ (by norm_num))⟩
      split at h
      · cases h
      · rename_i acc off rest0 hhex
        split at h
        · cases h
        · split at h
          · split at h
            · cases h
            · split at h
              · cases h
              · split at h
                · cases h
                · rename_i f hf
                  simp only [Option.some.injEq, Prod.mk.injEq] at h
                  obtain ⟨_, rfl, rfl, rfl⟩ := h
                  have hp := put4_shape ip f i hl hb (parseIPv4Fields_shape _ _ hf).2
                  exact ⟨by omega, hp.1, hp.2, fun e hh => by have := he e hh; omega⟩
          · simp only [] at h
            split at h
            · simp only [Option.some.injEq, Prod.mk.injEq] at h
              obtain ⟨_, rfl, rfl, rfl⟩ := h
              exact ⟨by omega, (hset _ _).1, (hset _ _).2,
                fun e hh => by have := he e hh; omega⟩
            · split at h
              · cases h
              · split at h
                · cases h
                · split at h
                  · cases h
                  · split at h
                    · simp only [Option.some.injEq, Prod.mk.injEq] at h
                      obtain ⟨_, rfl, rfl, rfl⟩ := h
                      exact ⟨by omega, (hset _ _).1, (hset _ _).2,
                        fun e hh => by cases hh; exact le_refl _⟩
                    · exact ih _ _ _ _ h (by omega) (by omega) (hset _ _).1 (hset _ _).2
                        (fun e hh => by cases hh; exact le_refl _)
                · exact ih _ _ _ _ h (by omega) (by omega) (hset _ _).1 (hset _ _).2
                    (fun e hh => by have := he e hh; omega)

theorem isBytes_replicate_zero (k : Nat) : IsBytes (List.replicate k 0) := by
  intro b hb
  rw [List.eq_of_mem_replicate hb]; norm_num

theorem isBytes_sublist {xs ys : List Nat} (h : xs.Sublist ys) (hy : IsBytes ys) :
    IsBytes xs :=
  fun b hb => hy b (h.subset hb)

theorem parseIPv6_finish (r : Option (List Char × Nat × List Nat × Option Nat))
    (bs : List Nat)
    (h : (match r with
      | none => none
      | some (rest, i, ip, ell) =>
        if rest ≠ [] then none
        else if i < 16 then
          match ell with
          | none => none
          | some e =>
            some (ip.take e ++ List.replicate (16 - i) 0 ++ (ip.drop e).take (i - e))
        else if ell.isSome then none
        else some ip) = some bs)
    (hinv : ∀ rest i ip ell, r = some (rest, i, ip, ell) →
      i ≤ 16 ∧ ip.length = 16 ∧ IsBytes ip ∧ ∀ e, ell = some e → e ≤ i) :
    bs.length = 16 ∧ IsBytes bs := by
  cases r with
  | none => cases h
  | some st =>
    obtain ⟨rest, i, ip, ell⟩ := st
    obtain ⟨hi, hl, hb, he⟩ := hinv rest i ip ell rfl
    simp only [] at h
    split at h
    · cases h
    · split at h
      · cases ell with
        | none => cases h
        | some e =>
          simp only [Option.some.injEq] at h
          subst h
          have hei := he e rfl
          refine ⟨?_, ?_⟩
          · simp [hl]; omega
          · rw [isBytes_append, isBytes_append]
            exact ⟨⟨isBytes_sublist (List.take_sublist _ _) hb, isBytes_replicate_zero _⟩,
              isBytes_sublist ((List.take_sublist _ _).trans (List.drop_sublist _ _)) hb⟩
      · split at h
        · cases h
        · cases h
          exact ⟨hl, hb⟩

theorem parseIPv6_shape (s : List Char) (bs : List Nat) (h : parseIPv6 s = some bs) :
    bs.length = 16 ∧ IsBytes bs := by
  unfold parseIPv6 at h
  split at h
  · cases h
  · simp only [] at h
    generalize decide (List.take 2 s = [':', ':']) = lead at h
    cases lead with
    | false =>
      simp only [Bool.false_eq_true, if_false, false_and] at h
      exact parseIPv6_finish _ bs h
        (fun rest i ip ell hloop =>
          parseIPv6Loop_shape 8 s 0 (List.replicate 16 0) none rest i ip ell hloop
            (by omega) (by omega) (by simp) (isBytes_replicate_zero 16)
            (fun e hh => by cases hh))
    | true =>
      simp only [if_true, true_and] at h
      split at h
      · cases h
        exact ⟨by simp, isBytes_replicate_zero 16⟩
      · exact parseIPv6_finish _ bs h
          (fun rest i ip ell hloop =>
            parseIPv6Loop_shape 8 (s.drop 2) 0 (List.replicate 16 0) (some 0) rest i ip ell
              hloop (by omega) (by omega) (by simp) (isBytes_replicate_zero 16)
              (fun e hh => by cases hh; exact le_refl _))

theorem parseAddrScan_v6 (whole rest : List Char) (bs : List Nat)
    (h : parseAddrScan whole rest = some (Addr.v6 bs)) : parseIPv6 whole = some bs := by
  induction rest with
  | nil => simp [parseAddrScan] at h
  | cons c rest ih =>
    simp only [parseAddrScan] at h
    split at h
    · cases hp : parseIPv4Fields whole with
      | none => rw [hp] at h; simp at h
      | some f => rw [hp] at h; simp at h
    · split at h
      · cases hp : parseIPv6 whole with
        | none => rw [hp] at h; simp at h
        | some f => rw [hp] at h; simp at h; rw [h]
      · split at h
        · cases h
        · exact ih h

theorem parseCIDRParts_v6 (s : String) (bs : List Nat) (n : Nat)
    (h : parseCIDRParts s = some (Addr.v6 bs, n)) :
    bs.length = 16 ∧ IsBytes bs ∧ n ≤ 128 := by
  unfold parseCIDRParts at h
  simp only [] at h
  split at h
  · split at h
    · cases h
    · rename_i a ha
      split at h
      · cases h
      · rename_i hc
        simp only [Option.some.injEq, Prod.mk.injEq] at h
        obtain ⟨h1, h2⟩ := h
        subst h1
        have hs := parseIPv6_shape _ _ (parseAddrScan_v6 _ _ _ ha)
        refine ⟨hs.1, hs.2, ?_⟩
        simp only [Addr.BitLen, not_or, not_lt] at hc
        omega
  · cases h

theorem ParseCIDR_v6 (s : String) (bs : List Nat) (n : Nat)
    (h : parseCIDRParts s = some (Addr.v6 bs, n)) :
    ParseCIDR s = some (bs,
      { IP := List.zipWith (fun a b => a &&& b) bs (cidrMaskLoop 16 n),
        Mask := cidrMaskLoop 16 n }) ∧
    ipMask bs (cidrMaskLoop 16 n) =
      List.zipWith (fun a b => a &&& b) bs (cidrMaskLoop 16 n) := by
  obtain ⟨hl, _, hn⟩ := parseCIDRParts_v6 s bs n h
  have hm : CIDRMask n 128 = cidrMaskLoop 16 n := by
    simp [CIDRMask, Nat.not_lt.mpr hn]
  have hml : (cidrMaskLoop 16 n).length = 16 := cidrMaskLoop_length 16 n
  have hmask : ipMask bs (cidrMaskLoop 16 n) =
      List.zipWith (fun a b => a &&& b) bs (cidrMaskLoop 16 n) := by
    unfold ipMask
    simp [hml, hl]
  refine ⟨?_, hmask⟩
  unfold ParseCIDR
  rw [h]
  simp only [Addr.BitLen, Addr.As16, hm, hmask]

theorem parseCIDRParts_v4 (s : String) (bs : List Nat) (n : Nat)
    (h : parseCIDRParts s = some (Addr.v4 bs, n)) :
    bs.length = 4 ∧ IsBytes bs ∧ n ≤ 32 := by
  unfold parseCIDRParts at h
  simp only [] at h
  split at h
  · split at h
    · cases h
    · rename_i a ha
      split at h
      · cases h
      · rename_i hc
        simp only [Option.some.injEq, Prod.mk.injEq] at h
        obtain ⟨h1, h2⟩ := h
        subst h1
        have hs := parseIPv4Fields_shape _ _ (parseAddrScan_v4 _ _ _ ha)
        refine ⟨hs.1, hs.2, ?_⟩
        simp only [Addr.BitLen, not_or, not_lt] at hc
        omega
  · cases h

theorem ParseCIDR_v4 (s : String) (bs : List Nat) (n : Nat)
    (h : parseCIDRParts s = some (Addr.v4 bs, n)) :
    ParseCIDR s = some (v4InV6Prefix ++ bs,
      { IP := List.zipWith (fun a b => a &&& b) bs (cidrMaskLoop 4 n),
        Mask := cidrMaskLoop 4 n }) ∧
    ipMask (v4InV6Prefix ++ bs) (cidrMaskLoop 4 n) =
      List.zipWith (fun a b => a &&& b) bs (cidrMaskLoop 4 n) := by
  obtain ⟨hl, _, hn⟩ := parseCIDRParts_v4 s bs n h
  have hm : CIDRMask n 32 = cidrMaskLoop 4 n := by
    simp [CIDRMask, Nat.not_lt.mpr hn]
  have hml : (cidrMaskLoop 4 n).length = 4 := cidrMaskLoop_length 4 n
  have hmask : ipMask (v4InV6Prefix ++ bs) (cidrMaskLoop 4 n) =
      List.zipWith (fun a b => a &&& b) bs (cidrMaskLoop 4 n) := by
    have h12 : (v4InV6Prefix ++ bs).take 12 = v4InV6Prefix := by
      simp [v4InV6Prefix]
    have hd : (v4InV6Prefix ++ bs).drop 12 = bs := by
      simp [v4InV6Prefix]
    have hlen : (v4InV6Prefix ++ bs).length = 16 := by
      simp [v4InV6Prefix, hl]
    unfold ipMask
    simp only [hml, hlen, h12, hd, hl]
    simp [hml, hl]
  refine ⟨?_, hmask⟩
  unfold ParseCIDR
  rw [h]
  simp only [Addr.BitLen, Addr.As16, hm, hmask]

/-- The expansion of an IPv4 block of prefix length at least one, in terms of
the parsed address bytes `bs` and prefix length `n`. -/
theorem explodeLoop_v4 (bs : List Nat) (n : Nat) (hl : bs.length = 4) (hb : IsBytes bs)
    (hn : n ≤ 32) (hn1 : 1 ≤ n) (fuel : Nat) (hf : 2 ^ (32 - n) < fuel) :
    explodeLoop
        { IP := List.zipWith (fun a b => a &&& b) bs (cidrMaskLoop 4 n),
          Mask := cidrMaskLoop 4 n }
        fuel (List.zipWith (fun a b => a &&& b) bs (cidrMaskLoop 4 n)) [] =
      some ((List.range (2 ^ (32 - n))).map
        (fun j => ipString (beBytes 4 (beVal bs / 2 ^ (32 - n) * 2 ^ (32 - n) + j)))) := by
  obtain ⟨nb, nv⟩ := zipWith_land_cidrMaskLoop 4 n bs hl hb (by omega)
  have hk : 8 * 4 - n = 32 - n := by omega
  rw [hk] at nv
  have hnl : (List.zipWith (fun a b => a &&& b) bs (cidrMaskLoop 4 n)).length = 4 := by
    simp [hl, cidrMaskLoop_length]
  generalize hnn : List.zipWith (fun a b => a &&& b) bs (cidrMaskLoop 4 n) = nn at *
  have hstart : nn = beBytes 4 (beVal bs / 2 ^ (32 - n) * 2 ^ (32 - n)) := by
    rw [← nv, ← hnl, beBytes_beVal nn nb]
  have hbv := beVal_lt bs hb
  rw [hl] at hbv
  have hB : 0 < 2 ^ (32 - n) := Nat.pos_pow_of_pos _ (by norm_num)
  have h256 : (256 : Nat) ^ 4 = 2 ^ (32 - n) * 2 ^ n := by
    rw [← pow_add, pow256]; congr 1; omega
  have h2n : 2 ≤ 2 ^ n := by
    calc 2 = 2 ^ 1 := by norm_num
      _ ≤ 2 ^ n := Nat.pow_le_pow_right (by norm_num) hn1
  generalize hBdef : 2 ^ (32 - n) = B at *
  generalize hQdef : 2 ^ n = Q at *
  have hq : beVal bs / B < Q := by
    rw [Nat.div_lt_iff_lt_mul hB, Nat.mul_comm, ← h256]; exact hbv
  have hc : ∀ v, v < 256 ^ 4 →
      Contains { IP := nn, Mask := cidrMaskLoop 4 n } (beBytes 4 v) =
        decide (v / B = beVal bs / B) := by
    intro v hv
    rw [contains_v4 nn (beBytes 4 v) n hn hnl nb (beBytes_length 4 v) (beBytes_isBytes 4 v),
      beVal_beBytes, Nat.mod_eq_of_lt hv, nv, hBdef, Nat.mul_div_cancel _ hB]
  have hsum : beVal bs / B * B + B ≤ 256 ^ 4 := by
    rw [h256]
    calc beVal bs / B * B + B = (beVal bs / B + 1) * B := by ring
      _ ≤ Q * B := Nat.mul_le_mul_right _ hq
      _ = B * Q := Nat.mul_comm _ _
  have := explodeLoop_segment { IP := nn, Mask := cidrMaskLoop 4 n } 4
    (fun v => decide (v / B = beVal bs / B)) hc B (beVal bs / B * B)
    (fun j hj => by
      simp only [decide_eq_true_eq]
      rw [Nat.add_comm, Nat.add_mul_div_right _ _ hB, Nat.div_eq_of_lt hj, Nat.zero_add])
    hsum
    (by
      simp only [decide_eq_false_iff_not]
      rcases Nat.lt_or_ge (beVal bs / B * B + B) (256 ^ 4) with hlt | hge
      · rw [Nat.mod_eq_of_lt hlt]
        have : (beVal bs / B * B + B) / B = beVal bs / B + 1 := by
          rw [show beVal bs / B * B + B = B + beVal bs / B * B by ring,
            Nat.add_mul_div_right _ _ hB, Nat.div_self hB]
          ring
        omega
      · have heq : beVal bs / B * B + B = 256 ^ 4 := le_antisymm hsum hge
        rw [heq, Nat.mod_self, Nat.zero_div]
        intro h0
        have hz : beVal bs / B = 0 := h0.symm
        rw [hz, Nat.zero_mul, Nat.zero_add, h256] at heq
        have : B * Q ≥ B * 2 := Nat.mul_le_mul_left _ h2n
        omega)
    fuel hf []
  rw [← hstart] at this
  simpa using this

/-- The expansion loop on a whole block: when containment of an address value
`v` is `v / B = q`, the loop started at the first address `q * B` of the block
returns exactly the `B` addresses of the block. -/
theorem explodeLoop_block (ipnet : IPNet) (w B Q q : Nat) (hBQ : 256 ^ w = B * Q)
    (hB : 0 < B) (hQ : 2 ≤ Q) (hq : q < Q)
    (hc : ∀ v, v < 256 ^ w → Contains ipnet (beBytes w v) = decide (v / B = q))
    (fuel : Nat) (hf : B < fuel) :
    explodeLoop ipnet fuel (beBytes w (q * B)) [] =
      some ((List.range B).map (fun j => ipString (beBytes w (q * B + j)))) := by
  have hsum : q * B + B ≤ 256 ^ w := by
    rw [hBQ]
    calc q * B + B = (q + 1) * B := by ring
      _ ≤ Q * B := Nat.mul_le_mul_right _ hq
      _ = B * Q := Nat.mul_comm _ _
  have := explodeLoop_segment ipnet w (fun v => decide (v / B = q)) hc B (q * B)
    (fun j hj => by
      simp only [decide_eq_true_eq]
      rw [Nat.add_comm, Nat.add_mul_div_right _ _ hB, Nat.div_eq_of_lt hj, Nat.zero_add])
    hsum
    (by
      simp only [decide_eq_false_iff_not]
      rcases Nat.lt_or_ge (q * B + B) (256 ^ w) with hlt | hge
      · rw [Nat.mod_eq_of_lt hlt]
        have : (q * B + B) / B = q + 1 := by
          rw [show q * B + B = B + q * B by ring,
            Nat.add_mul_div_right _ _ hB, Nat.div_self hB]
          ring
        omega
      · have heq : q * B + B = 256 ^ w := le_antisymm hsum hge
        rw [heq, Nat.mod_self, Nat.zero_div]
        intro h0
        rw [← h0, Nat.zero_mul, Nat.zero_add, hBQ] at heq
        have : B * Q ≥ B * 2 := Nat.mul_le_mul_left _ hQ
        omega)
    fuel hf []
  simpa using this

theorem ne_nil_of_length_pos (ip : List Nat) (k : Nat) (h : ip.length = k + 1) : ip ≠ [] := by
  intro e; rw [e] at h; simp at h

/-- Containment in an IPv6 network whose number is not IPv4-mapped: an
IPv4-mapped address is never contained, any other address is compared above
the host bits. -/
theorem contains_v6_plain (base n v : Nat) (hn : n ≤ 128) (hbase : base < 256 ^ 16)
    (hv : v < 256 ^ 16) (hnm : base / 2 ^ 32 ≠ 0xffff) :
    Contains { IP := beBytes 16 base, Mask := cidrMaskLoop 16 n } (beBytes 16 v) =
      if v / 2 ^ 32 = 0xffff then false
      else decide (v / 2 ^ (128 - n) = base / 2 ^ (128 - n)) := by
  have hml : (cidrMaskLoop 16 n).length = 16 := cidrMaskLoop_length 16 n
  have hT : To4 (beBytes 16 base) = [] := by
    rw [To4_beBytes16 base hbase, if_neg hnm]
  have hnet : networkNumberAndMask { IP := beBytes 16 base, Mask := cidrMaskLoop 16 n } =
      (beBytes 16 base, cidrMaskLoop 16 n) := by
    simp [networkNumberAndMask, hT, hml, beBytes_length]
  unfold Contains
  simp only [hnet, To4_beBytes16 v hv]
  by_cases h : v / 2 ^ 32 = 0xffff
  · simp only [if_pos h]
    simp [ne_nil_of_length_pos _ 3 (beBytes_length 4 v), beBytes_length]
  · simp only [if_neg h, ne_eq, not_true_eq_false, if_false, beBytes_length, if_false]
    rw [range_all_cidrMask 16 n _ _ (by omega) (beBytes_length _ _) (beBytes_isBytes _ _)
      (beBytes_length _ _) (beBytes_isBytes _ _), beVal_beBytes, beVal_beBytes,
      Nat.mod_eq_of_lt hv, Nat.mod_eq_of_lt hbase]

/-- Containment in an IPv6 network whose number is IPv4-mapped: only
IPv4-mapped addresses are contained, compared on their last four bytes. -/
theorem contains_v6_mapped (base n v : Nat) (hn : n ≤ 128) (hn96 : 96 ≤ n)
    (hbase : base < 256 ^ 16) (hv : v < 256 ^ 16) (hm : base / 2 ^ 32 = 0xffff) :
    Contains { IP := beBytes 16 base, Mask := cidrMaskLoop 16 n } (beBytes 16 v) =
      if v / 2 ^ 32 = 0xffff then
        decide (v % 2 ^ 32 / 2 ^ (128 - n) = base % 2 ^ 32 / 2 ^ (128 - n))
      else false := by
  have hml : (cidrMaskLoop 16 n).length = 16 := cidrMaskLoop_length 16 n
  have hT : To4 (beBytes 16 base) = beBytes 4 base := by
    rw [To4_beBytes16 base hbase, if_pos hm]
  have hdrop : (cidrMaskLoop 16 n).drop 12 = cidrMaskLoop 4 (n - 96) := by
    rw [show (16 : Nat) = 12 + 4 by norm_num, cidrMaskLoop_add 12 4 n (by omega)]
    simp
  have hnet : networkNumberAndMask { IP := beBytes 16 base, Mask := cidrMaskLoop 16 n } =
      (beBytes 4 base, cidrMaskLoop 4 (n - 96)) := by
    simp [networkNumberAndMask, hT, hml, beBytes_length, hdrop,
      ne_nil_of_length_pos _ 3 (beBytes_length 4 base)]
  have h32 : (256 : Nat) ^ 4 = 2 ^ 32 := by norm_num
  unfold Contains
  simp only [hnet, To4_beBytes16 v hv]
  by_cases h : v / 2 ^ 32 = 0xffff
  · simp only [if_pos h, ne_eq, ne_nil_of_length_pos _ 3 (beBytes_length 4 v),
      not_false_eq_true, if_true, beBytes_length, not_true_eq_false, if_false]
    rw [range_all_cidrMask 4 (n - 96) _ _ (by omega) (beBytes_length _ _) (beBytes_isBytes _ _)
      (beBytes_length _ _) (beBytes_isBytes _ _), beVal_beBytes, beVal_beBytes, h32,
      show 8 * 4 - (n - 96) = 128 - n by omega]
  · simp only [if_neg h, ne_eq, not_true_eq_false, if_false, beBytes_length]
    simp

/-- Containment in a parsed IPv6 network, for a block that does not reach
across the IPv4-mapped range: equality above the host bits. -/
theorem contains_v6 (q n v : Nat) (hn : n ≤ 128) (hq : q * 2 ^ (128 - n) < 256 ^ 16)
    (hv : v < 256 ^ 16)
    (hstop : n < 96 → 0xffff00000000 / 2 ^ (128 - n) ≠ q) :
    Contains { IP := beBytes 16 (q * 2 ^ (128 - n)), Mask := cidrMaskLoop 16 n }
        (beBytes 16 v) =
      decide (v / 2 ^ (128 - n) = q) := by
  have hBpos : 0 < 2 ^ (128 - n) := Nat.pos_pow_of_pos _ (by norm_num)
  have hbq : q * 2 ^ (128 - n) / 2 ^ (128 - n) = q := Nat.mul_div_cancel _ hBpos
  by_cases hm : q * 2 ^ (128 - n) / 2 ^ 32 = 0xffff
  · -- the network number is IPv4-mapped, so the prefix is at least 96 bits long
    have hn96 : 96 ≤ n := by
      by_contra hlt
      have hB : 2 ^ (128 - n) = 2 ^ (95 - n) * 2 * 2 ^ 32 := by
        rw [← pow_succ, ← pow_add]; congr 1; omega
      rw [hB, ← Nat.mul_assoc, Nat.mul_div_cancel _ (by norm_num), ← Nat.mul_assoc] at hm
      omega
    rw [contains_v6_mapped _ n v hn hn96 hq hv hm]
    have hM : (2 : Nat) ^ 32 = 2 ^ (128 - n) * 2 ^ (n - 96) := by
      rw [← pow_add]; congr 1; omega
    generalize hBdef : 2 ^ (128 - n) = B at *
    generalize hDdef : 2 ^ (n - 96) = D at *
    generalize hbase : q * B = base at *
    have hdiv : ∀ x : Nat, x / 2 ^ 32 = x / B / D := by
      intro x; rw [hM, Nat.div_div_eq_div_mul]
    have hsplit : ∀ x : Nat, x / B = x / 2 ^ 32 * D + x % 2 ^ 32 / B := by
      intro x
      have hx : x = x % 2 ^ 32 + x / 2 ^ 32 * D * B := by
        have := Nat.div_add_mod x (2 ^ 32)
        rw [Nat.mul_assoc, Nat.mul_comm D B, ← hM]
        rw [Nat.mul_comm] at this
        omega
      conv_lhs => rw [hx]
      rw [Nat.add_mul_div_right _ _ hBpos, Nat.add_comm]
    by_cases h : v / 2 ^ 32 = 0xffff
    · rw [if_pos h, Bool.eq_iff_iff]
      simp only [decide_eq_true_eq]
      have h1 := hsplit v
      have h2 := hsplit base
      rw [h] at h1
      rw [hm] at h2
      rw [hbq] at h2
      omega
    · rw [if_neg h]
      symm
      simp only [decide_eq_false_iff_not]
      intro he
      apply h
      rw [hdiv v, he, ← hbq, ← hdiv base, hm]
  · rw [contains_v6_plain _ n v hn hq hv hm, hbq]
    by_cases h : v / 2 ^ 32 = 0xffff
    · rw [if_pos h]
      symm
      simp only [decide_eq_false_iff_not]
      intro he
      rcases Nat.lt_or_ge n 96 with hlt | hge
      · apply hstop hlt
        have hB : 2 ^ (128 - n) = 2 ^ 32 * 2 ^ (96 - n) := by
          rw [← pow_add]; congr 1; omega
        rw [← he, hB, ← Nat.div_div_eq_div_mul, ← Nat.div_div_eq_div_mul, h]
        norm_num
      · apply hm
        have hM : (2 : Nat) ^ 32 = 2 ^ (128 - n) * 2 ^ (n - 96) := by
          rw [← pow_add]; congr 1; omega
        rw [hM, ← Nat.div_div_eq_div_mul, hbq, ← he, Nat.div_div_eq_div_mul, ← hM, h]
    · rw [if_neg h]

/-- The expansion of an IPv6 block of prefix length at least one that does not
reach across the IPv4-mapped range. -/
theorem explodeLoop_v6 (bs : List Nat) (n : Nat) (hl : bs.length = 16) (hb : IsBytes bs)
    (hn : n ≤ 128) (hn1 : 1 ≤ n)
    (hstop : n < 96 → 0xffff00000000 / 2 ^ (128 - n) ≠ beVal bs / 2 ^ (128 - n))
    (fuel : Nat) (hf : 2 ^ (128 - n) < fuel) :
    explodeLoop
        { IP := List.zipWith (fun a b => a &&& b) bs (cidrMaskLoop 16 n),
          Mask := cidrMaskLoop 16 n }
        fuel (List.zipWith (fun a b => a &&& b) bs (cidrMaskLoop 16 n)) [] =
      some ((List.range (2 ^ (128 - n))).map
        (fun j => ipString (beBytes 16 (beVal bs / 2 ^ (128 - n) * 2 ^ (128 - n) + j)))) := by
  obtain ⟨nb, nv⟩ := zipWith_land_cidrMaskLoop 16 n bs hl hb (by omega)
  have hk : 8 * 16 - n = 128 - n := by omega
  rw [hk] at nv
  have hnl : (List.zipWith (fun a b => a &&& b) bs (cidrMaskLoop 16 n)).length = 16 := by
    simp [hl, cidrMaskLoop_length]
  have hstart : List.zipWith (fun a b => a &&& b) bs (cidrMaskLoop 16 n) =
      beBytes 16 (beVal bs / 2 ^ (128 - n) * 2 ^ (128 - n)) := by
    have := beBytes_beVal _ nb
    rw [hnl, nv] at this
    exact this.symm
  rw [hstart]
  have hbv := beVal_lt bs hb
  rw [hl] at hbv
  have hB : 0 < 2 ^ (128 - n) := Nat.pos_pow_of_pos _ (by norm_num)
  have h256 : (256 : Nat) ^ 16 = 2 ^ (128 - n) * 2 ^ n := by
    rw [← pow_add, pow256]; congr 1; omega
  have h2n : 2 ≤ 2 ^ n := by
    calc 2 = 2 ^ 1 := by norm_num
      _ ≤ 2 ^ n := Nat.pow_le_pow_right (by norm_num) hn1
  have hq : beVal bs / 2 ^ (128 - n) < 2 ^ n := by
    rw [Nat.div_lt_iff_lt_mul hB, Nat.mul_comm, ← h256]; exact hbv
  have hqB : beVal bs / 2 ^ (128 - n) * 2 ^ (128 - n) < 256 ^ 16 :=
    lt_of_le_of_lt (Nat.div_mul_le_self _ _) hbv
  exact explodeLoop_block _ 16 (2 ^ (128 - n)) (2 ^ n) (beVal bs / 2 ^ (128 - n)) h256 hB h2n hq
    (fun v hv => contains_v6 _ n v hn hqB hv hstop) fuel hf

/-- The expansion of an IPv6 block of prefix length below 96 that contains the
IPv4-mapped range: the loop stops at `::ffff:0:0`, the first address that
`Contains` rejects, before the end of the block. -/
theorem explodeLoop_v6_stops_at_mapped_range (bs : List Nat) (n : Nat) (hl : bs.length = 16)
    (hb : IsBytes bs) (hn : n < 96)
    (hcov : 0xffff00000000 / 2 ^ (128 - n) = beVal bs / 2 ^ (128 - n))
    (fuel : Nat)
    (hf : 0xffff00000000 - beVal bs / 2 ^ (128 - n) * 2 ^ (128 - n) < fuel) :
    explodeLoop
        { IP := List.zipWith (fun a b => a &&& b) bs (cidrMaskLoop 16 n),
          Mask := cidrMaskLoop 16 n }
        fuel (List.zipWith (fun a b => a &&& b) bs (cidrMaskLoop 16 n)) [] =
      some ((List.range (0xffff00000000 - beVal bs / 2 ^ (128 - n) * 2 ^ (128 - n))).map
        (fun j => ipString (beBytes 16 (beVal bs / 2 ^ (128 - n) * 2 ^ (128 - n) + j)))) := by
  obtain ⟨nb, nv⟩ := zipWith_land_cidrMaskLoop 16 n bs hl hb (by omega)
  have hk : 8 * 16 - n = 128 - n := by omega
  rw [hk] at nv
  have hnl : (List.zipWith (fun a b => a &&& b) bs (cidrMaskLoop 16 n)).length = 16 := by
    simp [hl, cidrMaskLoop_length]
  have hstart : List.zipWith (fun a b => a &&& b) bs (cidrMaskLoop 16 n) =
      beBytes 16 (beVal bs / 2 ^ (128 - n) * 2 ^ (128 - n)) := by
    have := beBytes_beVal _ nb
    rw [hnl, nv] at this
    exact this.symm
  rw [hstart]
  have hbv := beVal_lt bs hb
  rw [hl] at hbv
  have hBpos : 0 < 2 ^ (128 - n) := Nat.pos_pow_of_pos _ (by norm_num)
  have hB : 2 ^ (128 - n) = 2 ^ (95 - n) * 2 * 2 ^ 32 := by
    rw [← pow_succ, ← pow_add]; congr 1; omega
  generalize hq : beVal bs / 2 ^ (128 - n) = q at *
  have hbase : q * 2 ^ (128 - n) < 256 ^ 16 := by
    rw [← hq]; exact lt_of_le_of_lt (Nat.div_mul_le_self _ _) hbv
  have hnm : q * 2 ^ (128 - n) / 2 ^ 32 ≠ 0xffff := by
    rw [hB, ← Nat.mul_assoc, Nat.mul_div_cancel _ (by norm_num), ← Nat.mul_assoc]
    omega
  have hle : q * 2 ^ (128 - n) ≤ 0xffff00000000 := by
    rw [← hcov]; exact Nat.div_mul_le_self _ _
  have hbq : q * 2 ^ (128 - n) / 2 ^ (128 - n) = q := Nat.mul_div_cancel _ hBpos
  have := explodeLoop_segment
    { IP := beBytes 16 (q * 2 ^ (128 - n)), Mask := cidrMaskLoop 16 n } 16
    (fun v => if v / 2 ^ 32 = 0xffff then false
      else decide (v / 2 ^ (128 - n) = q * 2 ^ (128 - n) / 2 ^ (128 - n)))
    (fun v hv => contains_v6_plain _ n v (by omega) hbase hv hnm)
    (0xffff00000000 - q * 2 ^ (128 - n)) (q * 2 ^ (128 - n))
    (fun j hj => by
      have hlt : q * 2 ^ (128 - n) + j < 0xffff00000000 := by omega
      have h1 : (q * 2 ^ (128 - n) + j) / 2 ^ 32 < 0xffff := by
        rw [Nat.div_lt_iff_lt_mul (by norm_num)]; exact hlt
      have h2 : (q * 2 ^ (128 - n) + j) / 2 ^ (128 - n) = q := by
        apply Nat.le_antisymm
        · have hd := Nat.div_le_div_right (c := 2 ^ (128 - n)) (le_of_lt hlt)
          rw [hcov] at hd
          exact hd
        · rw [Nat.le_div_iff_mul_le hBpos]; omega
      simp only [hbq, h2, decide_True, if_neg (Nat.ne_of_lt h1)])
    (by omega)
    (by
      rw [Nat.add_sub_cancel' hle]
      norm_num)
    fuel hf []
  simpa using this

/-- Every 4-byte address is contained in the network `0.0.0.0/0`. -/
theorem contains_slash_zero (ip : List Nat) (hl : ip.length = 4) (hb : IsBytes ip) :
    Contains { IP := [0, 0, 0, 0], Mask := [0, 0, 0, 0] } ip = true := by
  have h := contains_v4 [0, 0, 0, 0] ip 0 (by omega) rfl (by decide) hl hb
  have hm : cidrMaskLoop 4 0 = [0, 0, 0, 0] := by decide
  rw [hm] at h
  rw [h]
  have hv := beVal_lt ip hb
  rw [hl] at hv
  simp only [decide_eq_true_eq]
  rw [Nat.div_eq_of_lt (by omega : beVal ip < 2 ^ (32 - 0))]
  decide

theorem iterate_inc_shape (k : Nat) (ip : List Nat) (hb : IsBytes ip) :
    (inc^[k] ip).length = ip.length ∧ IsBytes (inc^[k] ip) := by
  induction k generalizing ip with
  | zero => exact ⟨rfl, hb⟩
  | succ k ih =>
    rw [Function.iterate_succ_apply]
    obtain ⟨h1, h2⟩ := ih (inc ip) (inc_isBytes ip hb)
    exact ⟨by rw [h1, inc_length], h2⟩

/-! ## Target expansion -/

/-- C9. For every byte sequence `ip` of length `n`, `inc` leaves the length
unchanged and replaces `ip` with the `n`-byte big-endian encoding of
`(v + 1) mod 2^(8n)`, where `v` is `ip` read as a big-endian unsigned
integer. -/
theorem inc_is_big_endian_successor (ip : List Nat) (h : IsBytes ip) :
    (inc ip).length = ip.length ∧
      inc ip = beBytes ip.length ((beVal ip + 1) % 2 ^ (8 * ip.length)) :=
  ⟨inc_length ip, inc_eq_beBytes ip h⟩

/-- C9, concrete runs: a carry over two bytes, and the wrap-around of the
all-ones address. -/
theorem inc_is_big_endian_successor_witness :
    inc [10, 0, 255, 255] = [10, 1, 0, 0] ∧ inc [255, 255, 255, 255] = [0, 0, 0, 0] ∧
      inc [10, 0, 255, 255] =
        beBytes 4 ((beVal [10, 0, 255, 255] + 1) % 2 ^ (8 * 4)) :=
  ⟨by decide, by decide, (inc_is_big_endian_successor [10, 0, 255, 255] (by decide)).2⟩

/-- C10, the code at the failing input. The string `0.0.0.0/0` parses as a
CIDR block, and no number of calls to `inc` takes the loop variable of
`explodeCIDRs` outside the block: the loop condition never fails. -/
theorem explodeCIDRs_loop_condition_never_fails :
    ∃ ip ipnet, ParseCIDR "0.0.0.0/0" = some (ip, ipnet) ∧
      ¬ ∃ k, Contains ipnet (inc^[k] (ipMask ip ipnet.Mask)) = false := by
  refine ⟨v4InV6Prefix ++ [0, 0, 0, 0], { IP := [0, 0, 0, 0], Mask := [0, 0, 0, 0] },
    by decide, ?_⟩
  rintro ⟨k, hk⟩
  have hstart : ipMask (v4InV6Prefix ++ [0, 0, 0, 0]) [0, 0, 0, 0] = [0, 0, 0, 0] := by decide
  simp only [hstart] at hk
  obtain ⟨h1, h2⟩ := iterate_inc_shape k [0, 0, 0, 0] (by decide)
  rw [contains_slash_zero _ h1 h2] at hk
  cases hk

/-- C2, the code at the failing input. The string `0.0.0.0/0` parses as an
IPv4 CIDR block of prefix length 0, and `explodeCIDRs` does not return on it,
however many loop rounds it is given: no list of addresses and no error. -/
theorem explodeCIDRs_slash_zero_never_returns :
    parseCIDRParts "0.0.0.0/0" = some (Addr.v4 [0, 0, 0, 0], 0) ∧
      ¬ ∃ fuel r, explodeCIDRs fuel "0.0.0.0/0" = some r := by
  refine ⟨by decide, ?_⟩
  rintro ⟨fuel, r, hr⟩
  have hp : ParseCIDR "0.0.0.0/0" =
      some (v4InV6Prefix ++ [0, 0, 0, 0], { IP := [0, 0, 0, 0], Mask := [0, 0, 0, 0] }) := by
    decide
  have hstart : ipMask (v4InV6Prefix ++ [0, 0, 0, 0]) [0, 0, 0, 0] = [0, 0, 0, 0] := by decide
  unfold explodeCIDRs at hr
  rw [hp] at hr
  simp only [hstart] at hr
  rw [explodeLoop_forever _ 4 contains_slash_zero fuel [0, 0, 0, 0] rfl (by decide)] at hr
  cases hr

/-- Expansion away from the failing inputs. For every string that parses as a
CIDR block with address `a` and prefix length `n` at least 1, other than an
IPv6 block of prefix length below 96 that contains the IPv4-mapped range
`::ffff:0:0/96`, `explodeCIDRs` returns without error, once it is given more
loop rounds than the block has addresses, and its result is the text of
exactly the `2^(bits - n)` addresses of the block, each once, in ascending
numeric order from the network address to the highest address (`bits` is 32
for IPv4 and 128 for IPv6). -/
theorem explodeCIDRs_block (s : String) (a : Addr) (n : Nat)
    (h : parseCIDRParts s = some (a, n)) (hn1 : 1 ≤ n) (hcov : ¬ coversMappedRange a n)
    (fuel : Nat) (hf : 2 ^ (a.BitLen - n) < fuel) :
    explodeCIDRs fuel s = some (Except.ok ((blockAddresses a n).map ipString)) := by
  cases a with
  | v4 bs =>
    obtain ⟨hl, hb, hn⟩ := parseCIDRParts_v4 s bs n h
    obtain ⟨hp, hm⟩ := ParseCIDR_v4 s bs n h
    unfold explodeCIDRs
    rw [hp]
    simp only [hm]
    rw [explodeLoop_v4 bs n hl hb hn hn1 fuel hf]
    simp [blockAddresses, Addr.BitLen, Addr.bytes]
  | v6 bs =>
    obtain ⟨hl, hb, hn⟩ := parseCIDRParts_v6 s bs n h
    obtain ⟨hp, hm⟩ := ParseCIDR_v6 s bs n h
    unfold explodeCIDRs
    rw [hp]
    simp only [hm]
    rw [explodeLoop_v6 bs n hl hb hn hn1
      (fun hlt he => hcov (by exact ⟨hlt, he⟩)) fuel hf]
    simp [blockAddresses, Addr.BitLen, Addr.bytes]

/-- Concrete runs of the expansion on `10.0.0.0/30` and on `2001:db8::/126`. -/
theorem explodeCIDRs_block_examples :
    explodeCIDRs 5 "10.0.0.0/30" =
        some (Except.ok ["10.0.0.0", "10.0.0.1", "10.0.0.2", "10.0.0.3"]) ∧
      explodeCIDRs 5 "2001:db8::/126" =
        some (Except.ok ["2001:db8::", "2001:db8::1", "2001:db8::2", "2001:db8::3"]) :=
  ⟨(explodeCIDRs_block "10.0.0.0/30" (Addr.v4 [10, 0, 0, 0]) 30 (by decide) (by decide)
      (by decide) 5 (by decide)).trans (by rfl),
    (explodeCIDRs_block "2001:db8::/126"
      (Addr.v6 [0x20, 0x01, 0x0d, 0xb8, 0, 0, 0, 0, 0, 0, 0, 0, 0, 0, 0, 0]) 126 (by decide)
      (by decide) (by decide) 5 (by decide)).trans (by rfl)⟩

/-! ## The prober -/

/-- C3. Whatever the host, port, URL parser and client behaviour, `getHeader`
sends exactly one result, for that host and port; its header mapping is absent
exactly when request construction fails or both the https and the http call
of `client.Do` return an error; when the https call succeeds the mapping is
that response's header mapping, and when it fails and the http call succeeds
the mapping is the http response's, whatever the status code. -/
theorem getHeader_headers (parse : String → Option URL)
    (Do : Client → Nat → Request → Except String Response)
    (ctx : Context) (host : String) (port : Int) (timeout : Nat) :
    ∃ r, (getHeader parse Do ctx host port timeout).sent = [r] ∧
      r.Host = host ∧ r.Port = port ∧
      (r.Headers = none ↔
        (parse (probeURL host port) = none ∨
          ∃ u e0 e1, parse (probeURL host port) = some u ∧
            Do (probeClient timeout) 0 (probeRequest ctx u) = Except.error e0 ∧
            Do (probeClient timeout) 1
              { probeRequest ctx u with URL := { u with Scheme := "http" } } =
                Except.error e1)) ∧
      (∀ u resp, parse (probeURL host port) = some u →
        Do (probeClient timeout) 0 (probeRequest ctx u) = Except.ok resp →
        r.Headers = some resp.Header) ∧
      (∀ u e0 resp, parse (probeURL host port) = some u →
        Do (probeClient timeout) 0 (probeRequest ctx u) = Except.error e0 →
        Do (probeClient timeout) 1
          { probeRequest ctx u with URL := { u with Scheme := "http" } } = Except.ok resp →
        r.Headers = some resp.Header) := by
  unfold getHeader NewRequestWithContext
  simp only [probeURL, probeClient, probeRequest]
  cases hp : parse ("https://" ++ host ++ ":" ++ toString port) with
  | none => exact ⟨_, rfl, rfl, rfl, by simp, by simp, by simp⟩
  | some u =>
    simp only []
    split
    · rename_i resp h0
      refine ⟨_, rfl, rfl, rfl, ?_, ?_, ?_⟩
      · constructor
        · intro h; cases h
        · rintro (h | ⟨u1, e0, e1, hu, h, _⟩)
          · cases h
          · cases hu; rw [h0] at h; cases h
      · intro u1 r1 hu h; cases hu; rw [h0] at h; cases h; rfl
      · intro u1 e0 r1 hu h; cases hu; rw [h0] at h; cases h
    · rename_i e0 h0
      split
      · rename_i e1 h1
        refine ⟨_, rfl, rfl, rfl, ?_, ?_, ?_⟩
        · constructor
          · intro _; exact Or.inr ⟨u, e0, e1, rfl, h0, h1⟩
          · intro _; rfl
        · intro u1 r1 hu h; cases hu; rw [h0] at h; cases h
        · intro u1 e r1 hu _ h; cases hu; rw [h1] at h; cases h
      · rename_i resp h1
        refine ⟨_, rfl, rfl, rfl, ?_, ?_, ?_⟩
        · constructor
          · intro h; cases h
          · rintro (h | ⟨u1, e, e1, hu, _, h⟩)
            · cases h
            · cases hu; rw [h1] at h; cases h
        · intro u1 r1 hu h; cases hu; rw [h0] at h; cases h
        · intro u1 e r1 hu _ h; cases hu; rw [h1] at h; cases h; rfl

/-- C3, concrete run: the encrypted attempt fails, the plaintext attempt
answers 404 with a `Server` header, and the result carries that mapping. -/
theorem getHeader_headers_witness :
    ∃ r, (getHeader parseAny doFallback { done := false } "example.com" 80 3).sent = [r] ∧
      r.Headers = some [("Server", ["nginx"])] := by
  obtain ⟨r, hs, _, _, _, _, h2⟩ :=
    getHeader_headers parseAny doFallback { done := false } "example.com" 80 3
  exact ⟨r, hs, h2 _ "tls: handshake failure" { StatusCode := 404, Header := [("Server", ["nginx"])] }
    rfl rfl rfl⟩

/-- C5. The requests `getHeader` hands to `client.Do` are, in order: none when
request construction fails; otherwise first the HEAD request built from
`https://host:port` with the fixed `User-Agent`, and then, exactly when that
call returned an error, the same request with only the URL scheme replaced by
`http` (same URL host and path, method, header and context). -/
theorem getHeader_requests (parse : String → Option URL)
    (Do : Client → Nat → Request → Except String Response)
    (ctx : Context) (host : String) (port : Int) (timeout : Nat) :
    (parse (probeURL host port) = none →
      (getHeader parse Do ctx host port timeout).requests = []) ∧
    (∀ u, parse (probeURL host port) = some u →
      ∃ first second,
        first = { ctx := ctx, Method := "HEAD", URL := u,
                  Header := [("User-Agent", [userAgent])] } ∧
        second = { first with URL := { Scheme := "http", Host := u.Host, Path := u.Path } } ∧
        (getHeader parse Do ctx host port timeout).requests =
          match Do (probeClient timeout) 0 first with
          | Except.ok _ => [first]
          | Except.error _ => [first, second]) := by
  unfold getHeader NewRequestWithContext
  simp only [probeURL, probeClient]
  constructor
  · intro hp
    simp [hp]
  · intro u hp
    refine ⟨_, _, rfl, rfl, ?_⟩
    simp only [hp]
    split
    · rename_i resp h0
      simp [h0]
    · rename_i e0 h0
      split <;> rfl

/-- C5, concrete runs: with a failing encrypted attempt two requests are
issued, https first and then http; with failing request construction none. -/
theorem getHeader_requests_witness :
    (getHeader parseAny doFallback { done := false } "example.com" 80 3).requests.map
        (fun r => (r.Method, r.URL.Scheme, r.URL.Host)) =
      [("HEAD", "https", "https://example.com:80"), ("HEAD", "http", "https://example.com:80")] ∧
    (getHeader parseNone doFallback { done := false } "example.com" 80 3).requests = [] := by
  constructor
  · obtain ⟨f, s, hf, hs, h⟩ :=
      (getHeader_requests parseAny doFallback { done := false } "example.com" 80 3).2 _ rfl
    rw [h, hs, hf]
    rfl
  · exact (getHeader_requests parseNone doFallback { done := false } "example.com" 80 3).1 rfl

/-- C8, counterexample. With a client that honours the request context, as
Go's does, the probe of the same host and port yields a present header mapping
when the signal has not fired and an absent one when it has; the requests
handed to the client carry the fired context. -/
theorem getHeader_cancellation_reaches_probe :
    (getHeader parseAny doHonourCtx { done := false } "example.com" 80 3).sent =
        [{ Host := "example.com", Port := 80, Headers := some [("Server", ["nginx"])] }] ∧
    (getHeader parseAny doHonourCtx { done := true } "example.com" 80 3).sent =
        [{ Host := "example.com", Port := 80, Headers := none }] ∧
    (getHeader parseAny doHonourCtx { done := true } "example.com" 80 3).requests.map
        (fun r => r.ctx.done) = [true, true] := by
  refine ⟨rfl, rfl, rfl⟩

/-- C8, amended. The cancellation signal does reach a started probe. For every
host, port, timeout, URL parser and client behaviour: every request
`getHeader` hands to the client carries the worker's cancellation context; the
method, URL and header of the first request are the same whatever the signal;
and with a client that fails every request whose context is done, as Go's
does, a probe whose signal has fired sends exactly one result, for its host
and port, with an absent header mapping. -/
theorem getHeader_signal_reaches_client (parse : String → Option URL)
    (Do : Client → Nat → Request → Except String Response)
    (ctx : Context) (host : String) (port : Int) (timeout : Nat) :
    (∀ r ∈ (getHeader parse Do ctx host port timeout).requests, r.ctx = ctx) ∧
    (∀ c2 : Context,
      (getHeader parse Do ctx host port timeout).requests.head?.map
          (fun r => (r.Method, r.URL, r.Header)) =
        (getHeader parse Do c2 host port timeout).requests.head?.map
          (fun r => (r.Method, r.URL, r.Header))) ∧
    ((∀ cl k (r : Request), r.ctx.done = true → ∃ e, Do cl k r = Except.error e) →
      ctx.done = true →
      (getHeader parse Do ctx host port timeout).sent =
        [{ Host := host, Port := port, Headers := none }]) := by
  unfold getHeader NewRequestWithContext
  cases hp : parse ("https://" ++ host ++ ":" ++ toString port) with
  | none => simp
  | some u =>
    simp only []
    refine ⟨?_, ?_, ?_⟩
    · split
      · simp
      · split <;> simp
    · intro c2
      split
      · split
        · rfl
        · split <;> rfl
      · split
        · split
          · rfl
          · split <;> rfl
        · split
          · rfl
          · split <;> rfl
    · intro hDo hfired
      split
      · rename_i resp h0
        obtain ⟨e, he⟩ := hDo _ 0 _ (show (probeRequest ctx u).ctx.done = true from hfired)
        simp only [probeRequest] at he
        rw [he] at h0
        cases h0
      · split
        · rfl
        · rename_i resp h1
          obtain ⟨e, he⟩ := hDo _ 1 _
            (show ({ probeRequest ctx u with URL := { u with Scheme := "http" } } :
              Request).ctx.done = true from hfired)
          simp only [probeRequest] at he
          rw [he] at h1
          cases h1

/-- C8, amended, concrete run: with a client that honours the request context
and the signal fired, the probe of `example.com:80` issues both attempts, each
carrying the fired context, and sends the result without header mapping. -/
theorem getHeader_signal_reaches_client_witness :
    (getHeader parseAny doHonourCtx { done := true } "example.com" 80 3).sent =
        [{ Host := "example.com", Port := 80, Headers := none }] ∧
      ∀ r ∈ (getHeader parseAny doHonourCtx { done := true } "example.com" 80 3).requests,
        r.ctx = { done := true } :=
  ⟨(getHeader_signal_reaches_client parseAny doHonourCtx { done := true } "example.com" 80
      3).2.2
      (fun _ _ r h => ⟨"context canceled", by simp [doHonourCtx, h]⟩) rfl,
    (getHeader_signal_reaches_client parseAny doHonourCtx { done := true } "example.com" 80
      3).1⟩

/-! ## The worker -/

theorem getHeader_sent (parse : String → Option URL)
    (Do : Client → Nat → Request → Except String Response)
    (ctx : Context) (host : String) (port : Int) (timeout : Nat) :
    ∃ h, (getHeader parse Do ctx host port timeout).sent =
      [{ Host := host, Port := port, Headers := h }] := by
  unfold getHeader NewRequestWithContext
  cases parse ("https://" ++ host ++ ":" ++ toString port) with
  | none => exact ⟨_, rfl⟩
  | some u =>
    simp only []
    split
    · exact ⟨_, rfl⟩
    · split <;> exact ⟨_, rfl⟩

theorem portsLoop_pairs (parse : String → Option URL)
    (Do : Client → Nat → Request → Except String Response)
    (ctx : Context) (timeout : Nat) (host : String) (ports : List Int) :
    (portsLoop parse Do ctx timeout host ports).map (fun x => (x.Host, x.Port)) =
      ports.map (fun p => (host, p)) := by
  induction ports with
  | nil => rfl
  | cons p rest ih =>
    obtain ⟨h, hs⟩ := getHeader_sent parse Do ctx host p timeout
    simp [portsLoop, hs, ih]

theorem worker_recv_closed (parse : String → Option URL)
    (Do : Client → Nat → Request → Except String Response)
    (ctx : Context) (ports : List Int) (timeout : Nat) (hosts : List String)
    (out : List Result) :
    worker parse Do ctx ports timeout
        (hosts.map SelectEvent.recv ++ [SelectEvent.closed]) out =
      (out ++ hosts.flatMap (fun h => portsLoop parse Do ctx timeout h ports), true) := by
  induction hosts generalizing out with
  | nil => simp [worker]
  | cons h rest ih => simp [worker, ih]

/-- C7. A worker whose `select` receives the hosts `h1..hk` and then finds the
queue closed (the cancellation case is never taken) sends exactly `k * m`
results for the port list `p1..pm`, carrying the pairs `(h1,p1), ..., (h1,pm),
(h2,p1), ..., (hk,pm)` in this order, and then returns. -/
theorem worker_sends_pairs_in_order (parse : String → Option URL)
    (Do : Client → Nat → Request → Except String Response)
    (ctx : Context) (ports : List Int) (timeout : Nat) (hosts : List String) :
    (worker parse Do ctx ports timeout
        (hosts.map SelectEvent.recv ++ [SelectEvent.closed]) []).2 = true ∧
    (worker parse Do ctx ports timeout
        (hosts.map SelectEvent.recv ++ [SelectEvent.closed]) []).1.length =
      hosts.length * ports.length ∧
    (worker parse Do ctx ports timeout
        (hosts.map SelectEvent.recv ++ [SelectEvent.closed]) []).1.map
        (fun x => (x.Host, x.Port)) =
      hosts.flatMap (fun h => ports.map (fun p => (h, p))) := by
  rw [worker_recv_closed]
  have hmap : (hosts.flatMap (fun h => portsLoop parse Do ctx timeout h ports)).map
      (fun x => (x.Host, x.Port)) = hosts.flatMap (fun h => ports.map (fun p => (h, p))) := by
    induction hosts with
    | nil => rfl
    | cons h rest ih => simp [List.flatMap_cons, portsLoop_pairs, ih]
  refine ⟨rfl, ?_, by simpa using hmap⟩
  have hlen := congrArg List.length hmap
  rw [List.length_map] at hlen
  simp only [List.nil_append]
  rw [hlen]
  clear hmap hlen
  induction hosts with
  | nil => simp
  | cons h rest ih => simp [List.flatMap_cons, ih, Nat.succ_mul, Nat.add_comm]

/-! ## The dispatch loop and the collector -/

theorem dispatchLoop_queue (fuel : Nat) (targets queue : List String) :
    dispatchLoop fuel targets queue =
      (dispatchLoop fuel targets []).map (fun q => queue ++ q) := by
  induction targets generalizing queue with
  | nil => simp [dispatchLoop]
  | cons t rest ih =>
    simp only [dispatchLoop]
    cases ParseCIDR t with
    | none =>
      simp only [List.nil_append]
      rw [ih (queue ++ [t]), ih [t]]
      cases dispatchLoop fuel rest [] <;> simp
    | some pr =>
      simp only []
      cases explodeCIDRs fuel t with
      | none => rfl
      | some r =>
        cases r with
        | error e => exact ih queue
        | ok ips =>
          simp only [List.nil_append]
          rw [ih (queue ++ ips), ih ips]
          cases dispatchLoop fuel rest [] <;> simp

theorem dispatchLoop_append (fuel : Nat) (pre post : List String) :
    dispatchLoop fuel (pre ++ post) [] =
      (dispatchLoop fuel pre []).bind (fun q => dispatchLoop fuel post q) := by
  suffices h : ∀ queue, dispatchLoop fuel (pre ++ post) queue =
      (dispatchLoop fuel pre queue).bind (fun q => dispatchLoop fuel post q) from h []
  induction pre with
  | nil => intro queue; simp [dispatchLoop]
  | cons t rest ih =>
    intro queue
    simp only [List.cons_append, dispatchLoop]
    cases ParseCIDR t with
    | none => exact ih _
    | some pr =>
      simp only []
      cases explodeCIDRs fuel t with
      | none => rfl
      | some r =>
        cases r with
        | error e => exact ih _
        | ok ips => exact ih _

/-- C6. A target that does not parse as a CIDR block is expanded to exactly the
one-element sequence holding that string unchanged: `explodeCIDRs` returns its
parse error and the dispatch loop enqueues the string itself. -/
theorem nonCIDR_target_is_single_literal (fuel : Nat) (target : String)
    (h : ParseCIDR target = none) :
    dispatchLoop fuel [target] [] = some [target] ∧
      ∃ e, explodeCIDRs fuel target = some (Except.error e) := by
  constructor
  · simp [dispatchLoop, h]
  · exact ⟨"invalid CIDR address: " ++ target, by simp [explodeCIDRs, h]⟩

/-- C6, concrete run on `example.com`. -/
theorem nonCIDR_target_is_single_literal_witness :
    ParseCIDR "example.com" = none ∧
      dispatchLoop 0 ["example.com"] [] = some ["example.com"] :=
  ⟨by decide, (nonCIDR_target_is_single_literal 0 "example.com" (by decide)).1⟩

/-- C4, counterexample. The CIDR-shaped string `10.0.0.0/33` does not parse as
a CIDR block, and the dispatch loop enqueues it as a host instead of skipping
it. -/
theorem dispatch_enqueues_malformed_cidr :
    ParseCIDR "10.0.0.0/33" = none ∧
      dispatchLoop 3 ["10.0.0.0/33", "10.0.0.0/31"] [] =
        some ["10.0.0.0/33", "10.0.0.0", "10.0.0.1"] :=
  ⟨by decide, by rfl⟩

/-- C4, amended. A target that does not parse as a CIDR block, CIDR-shaped or
not, is not skipped: the dispatch loop enqueues it unchanged as one host,
between the hosts of the targets before it and the hosts of the targets after
it, all of which are still enqueued. -/
theorem dispatch_unparsable_target_is_enqueued (fuel : Nat) (pre post hp hq : List String)
    (s : String) (h : ParseCIDR s = none)
    (h1 : dispatchLoop fuel pre [] = some hp) (h2 : dispatchLoop fuel post [] = some hq) :
    dispatchLoop fuel (pre ++ s :: post) [] = some (hp ++ s :: hq) := by
  rw [dispatchLoop_append, h1]
  simp only [Option.some_bind, dispatchLoop, h]
  rw [dispatchLoop_queue, h2]
  simp

/-- C4, amended, concrete run. -/
theorem dispatch_unparsable_target_is_enqueued_witness :
    dispatchLoop 3 (["10.0.0.0/31"] ++ "10.0.0.0/33" :: ["example.com"]) [] =
      some (["10.0.0.0", "10.0.0.1"] ++ "10.0.0.0/33" :: ["example.com"]) :=
  dispatch_unparsable_target_is_enqueued 3 ["10.0.0.0/31"] ["example.com"]
    ["10.0.0.0", "10.0.0.1"] ["example.com"] "10.0.0.0/33" (by decide) (by rfl) (by rfl)

theorem collectorLoop_length (n : Nat) (arrivals results out : List Result)
    (h : collectorLoop n arrivals results = some out) :
    out.length = results.length + n := by
  induction n generalizing arrivals results with
  | zero => simp [collectorLoop] at h; subst h; rfl
  | succ n ih =>
    cases arrivals with
    | nil => simp [collectorLoop] at h
    | cons r rest =>
      simp only [collectorLoop] at h
      rw [ih _ _ h]
      simp; omega

/-- C1, the code at the failing input. For the single target `10.0.0.0/30` and
the single port 80 the dispatch loop enqueues four hosts and a worker that
receives them sends four results, but the collector, whose bound is
`len(targets)*len(portsInt)`, returns after the first of them; whatever
arrives on the result channel, it never returns four results. -/
theorem collector_bound_counts_targets_not_hosts :
    dispatchLoop 5 ["10.0.0.0/30"] [] =
        some ["10.0.0.0", "10.0.0.1", "10.0.0.2", "10.0.0.3"] ∧
      (worker parseAny doFallback { done := false } [80] 3
          (["10.0.0.0", "10.0.0.1", "10.0.0.2", "10.0.0.3"].map SelectEvent.recv ++
            [SelectEvent.closed]) []).1.map (fun r => (r.Host, r.Port)) =
        [("10.0.0.0", 80), ("10.0.0.1", 80), ("10.0.0.2", 80), ("10.0.0.3", 80)] ∧
      (collector ["10.0.0.0/30"] [80]
          (worker parseAny doFallback { done := false } [80] 3
            (["10.0.0.0", "10.0.0.1", "10.0.0.2", "10.0.0.3"].map SelectEvent.recv ++
              [SelectEvent.closed]) []).1).map (fun out => out.map (fun r => (r.Host, r.Port))) =
        some [("10.0.0.0", 80)] ∧
      ¬ ∃ arrivals out, collector ["10.0.0.0/30"] [80] arrivals = some out ∧
        out.length = 4 * 1 := by
  refine ⟨by rfl, by rfl, by rfl, ?_⟩
  rintro ⟨arrivals, out, h, hlen⟩
  have := collectorLoop_length _ _ _ _ h
  simp at this
  omega

end AsyncHeaderGrab
